import Mathlib

/-!
Shallow embedding of the PZ-MOD-TILESHEETS tools.

The repository contains two Python scripts:
* `pz-mod-tilesheets.py` with `natural_key`, `parse_last_number` and
  `create_tilesheet` (the tilesheet/grid composer), and
* the blank-tile generator with `parse_last_number`, `parse_prefix` and
  `generate_missing_images`.

Filenames are modelled as lists of characters (ASCII digit semantics for
the digit-run splitting performed by `re.split(r'(\d+)', s)`).  Raster
images are modelled as a size plus a total pixel function; the external
image library's resize operation is a parameter of the composer.
-/

set_option maxHeartbeats 1000000
set_option maxRecDepth 8192

abbrev Filename := List Char

/-- Numeric value of a decimal digit character. -/
def digitVal (c : Char) : Nat := c.toNat - 48

/-- Embedding of Python `int(t)` on a string of decimal digits. -/
def digitsToNat (t : List Char) : Nat := t.foldl (fun acc c => acc * 10 + digitVal c) 0

/-- Python `t.isdigit()`: the string is nonempty and all of its characters are digits. -/
def pyIsDigit (t : List Char) : Bool := !t.isEmpty && t.all Char.isDigit

/-- Embedding of `re.split(r'(\d+)', s)`: the string is split into alternating
text / digit-run tokens, starting and ending with a (possibly empty) text
token; digit runs are maximal and nonempty.  Defined structurally by
prepending one character to the split of the tail. -/
def reSplitDigits : List Char → List (List Char)
  | [] => [[]]
  | c :: cs =>
    match reSplitDigits cs with
    | [] => []
    | t :: rs =>
      if c.isDigit then
        if t.isEmpty then
          match rs with
          | [] => [[], [c], []]
          | num :: rs' => [] :: (c :: num) :: rs'
        else [] :: [c] :: t :: rs
      else (c :: t) :: rs

/-- Embedding of `parse_last_number`: the integer value of the last digit
token produced by the split, or `none` when there is no digit token. -/
def parse_last_number (s : List Char) : Option Nat :=
  (((reSplitDigits s).filter pyIsDigit).map digitsToNat).getLast?

/-- An element of a natural-sort key: a text token or the value of a digit token. -/
abbrev KeyElem := (List Char) ⊕ Nat

/-- Embedding of `natural_key`: each token of the split is converted to an
integer when it is a digit token and kept as text otherwise. -/
def natural_key (s : List Char) : List KeyElem :=
  (reSplitDigits s).map (fun t => if pyIsDigit t then Sum.inr (digitsToNat t) else Sum.inl t)

/-- Comparison of two characters by code point. -/
def cmpChar (a b : Char) : Ordering := compare a.toNat b.toNat

/-- Lexicographic comparison of two strings, as Python compares `str` values. -/
def cmpCharList : List Char → List Char → Ordering
  | [], [] => .eq
  | [], _ :: _ => .lt
  | _ :: _, [] => .gt
  | a :: as, b :: bs =>
    match cmpChar a b with
    | .eq => cmpCharList as bs
    | o => o

/-- Comparison of two key elements as Python compares them: strings compare
with strings, integers with integers, and a mixed pair raises `TypeError`
(modelled as `none`). -/
def pyCmpElem : KeyElem → KeyElem → Option Ordering
  | .inl a, .inl b => some (cmpCharList a b)
  | .inr a, .inr b => some (compare a b)
  | _, _ => none

/-- Comparison of two key lists as Python compares lists: elementwise, with a
prefix comparing less than a longer list; `none` when a mixed-type pair of
elements has to be compared. -/
def pyCmpKey : List KeyElem → List KeyElem → Option Ordering
  | [], [] => some .eq
  | [], _ :: _ => some .lt
  | _ :: _, [] => some .gt
  | a :: as, b :: bs =>
    match pyCmpElem a b with
    | none => none
    | some .eq => pyCmpKey as bs
    | some o => some o

/-- The ordering on filenames used by `all_files.sort(key=natural_key)`:
a file precedes another when its key does not compare greater. -/
def natLe (a b : Filename) : Prop := pyCmpKey (natural_key a) (natural_key b) ≠ some .gt

instance : DecidableRel natLe := fun a b => by unfold natLe; infer_instance

/-- Strict order on filenames by natural key. -/
def natLt (a b : Filename) : Prop := pyCmpKey (natural_key a) (natural_key b) = some .lt

instance : DecidableRel natLt := fun a b => by unfold natLt; infer_instance

/-- Embedding of `os.path.splitext` for names without path separators: the
extension starts at the last dot, unless every character before that dot is
itself a dot, in which case the extension is empty. -/
def splitext (s : List Char) : List Char × List Char :=
  let r := s.reverse
  let extRev := r.takeWhile (fun c => c ≠ '.')
  match r.drop extRev.length with
  | [] => (s, [])
  | _ :: baseRev =>
    if baseRev.any (fun c => c ≠ '.') then (baseRev.reverse, '.' :: extRev.reverse)
    else (s, [])

/-- Fuel-driven accumulator loop producing the decimal digits of `n`. -/
def natToStrAux : Nat → Nat → List Char → List Char
  | 0, _, acc => acc
  | fuel + 1, n, acc =>
    if n = 0 then acc else natToStrAux fuel (n / 10) (Nat.digitChar (n % 10) :: acc)

/-- Embedding of Python `str(n)` for a natural number. -/
def natToStr (n : Nat) : List Char := if n = 0 then ['0'] else natToStrAux n n []

/-- Embedding of `parse_prefix`: strip the extension, then strip the decimal
representation of `last_number` from the end of the base name when it is a
suffix of it; otherwise return the base name unchanged. -/
def parsePrefix (filename : List Char) (last_number : Nat) : List Char :=
  let base := (splitext filename).1
  let numStr := natToStr last_number
  if numStr.isSuffixOf base then base.take (base.length - numStr.length) else base

/-- Python `dict` assignment `d[k] = v`: an existing binding is updated in
place, a new key is appended at the end (insertion order). -/
def dictInsert (k : Nat) (v : Filename) : List (Nat × Filename) → List (Nat × Filename)
  | [] => [(k, v)]
  | (k', v') :: d => if k = k' then (k, v) :: d else (k', v') :: dictInsert k v d

/-- Python `d[k]` / `d.get(k)` on the association-list model of a dict. -/
def dictLookup (d : List (Nat × Filename)) (k : Nat) : Option Filename :=
  match d with
  | [] => none
  | (k', v) :: d' => if k = k' then some v else dictLookup d' k

/-- Python `k in d`. -/
def hasKey (d : List (Nat × Filename)) (k : Nat) : Bool := (dictLookup d k).isSome

/-- The missing-index computation shared by both scripts:
`[i for i in range(min_idx, max_idx + 1) if i not in index_to_file]`. -/
def missing_indices (d : List (Nat × Filename)) (minI maxI : Nat) : List Nat :=
  (List.range' minI (maxI + 1 - minI)).filter (fun i => !hasKey d i)

/-- Python `s.lower()` (ASCII). -/
def lowerStr (s : List Char) : List Char := s.map Char.toLower

/-- The file filter `f.lower().endswith(('.png', '.jpg', '.jpeg'))`. -/
def hasImageExt (f : Filename) : Bool :=
  ".png".toList.isSuffixOf (lowerStr f) || ".jpg".toList.isSuffixOf (lowerStr f) ||
    ".jpeg".toList.isSuffixOf (lowerStr f)

/-- One step of building `index_to_file`: `index_to_file[idx] = filename`
when the file has a parsed last number, no change otherwise. -/
def insertStep (d : List (Nat × Filename)) (f : Filename) : List (Nat × Filename) :=
  match parse_last_number f with
  | some idx => dictInsert idx f d
  | none => d

/-- The dictionary `index_to_file` built by inserting each file under its
parsed last number, in list order; files without a number are skipped. -/
def buildIndexMap (fs : List Filename) : List (Nat × Filename) :=
  fs.foldl insertStep []

/-- The `valid_indices` list of the composer: the parsed index of each file
that has one, in list order. -/
def validIndices (fs : List Filename) : List Nat := fs.filterMap parse_last_number

/-- Embedding of `generate_missing_images` of the blank-tile generator,
returning the list of filenames the run creates (the written placeholder
images are blank tiles; only the names matter for the folder state).  The
two inner `match` fallbacks to `[]` are unreachable: the key list of a
nonempty dict is nonempty and its minimum is a key. -/
def generate_missing_images (files : List Filename) : List Filename :=
  let all_files := files.filter hasImageExt
  if all_files.isEmpty then []
  else
    let index_to_file := buildIndexMap all_files
    if index_to_file.isEmpty then []
    else
      match index_to_file.map Prod.fst with
      | [] => []
      | k :: ks =>
        let min_idx := ks.foldl min k
        let max_idx := ks.foldl max k
        match dictLookup index_to_file min_idx with
        | none => []
        | some example_file =>
          let pre := parsePrefix example_file min_idx
          let ext := lowerStr (splitext example_file).2
          (missing_indices index_to_file min_idx max_idx).map
            (fun idx => pre ++ natToStr idx ++ ext)

/-- A color with alpha, as in PIL mode RGBA. -/
structure Rgba where
  r : Nat
  g : Nat
  b : Nat
  a : Nat
deriving DecidableEq

/-- The fully transparent color (0, 0, 0, 0). -/
def transparentPx : Rgba := ⟨0, 0, 0, 0⟩

/-- A raster image: a size and a total pixel function. -/
structure Image where
  width : Nat
  height : Nat
  pixel : Nat × Nat → Rgba

/-- PIL `Image.new('RGBA', (w, h), (0, 0, 0, 0))`. -/
def Image.blank (w h : Nat) : Image := ⟨w, h, fun _ => transparentPx⟩

/-- PIL `canvas.paste(tile, (x, y))`: pixels inside the pasted rectangle are
replaced by the tile's pixels, all others are unchanged. -/
def Image.pasteAt (canvas tile : Image) (x y : Nat) : Image :=
  { canvas with
    pixel := fun p =>
      if x ≤ p.1 ∧ p.1 < x + tile.width ∧ y ≤ p.2 ∧ p.2 < y + tile.height then
        tile.pixel (p.1 - x, p.2 - y)
      else canvas.pixel p }

/-- The external image library's resize: given a source image and target
dimensions it yields the pixels of the stretched image (the result always
has exactly the requested dimensions, which the composer relies on). -/
abbrev ResizeFn := Image → Nat → Nat → (Nat × Nat → Rgba)

/-- The image pasted for one slot: a blank transparent tile for a placeholder,
the source image when its size is already the tile size, and the resized
image otherwise. -/
def slotImage (tw th : Nat) (rp : ResizeFn) : Option Image → Image
  | none => Image.blank tw th
  | some im => if im.width = tw ∧ im.height = th then im else ⟨tw, th, rp im tw th⟩

/-- `columns = min(num_images, max_columns)`. -/
def gridColumns (n maxC : Nat) : Nat := min n maxC

/-- `rows = math.ceil(num_images / columns)`. -/
def gridRows (n maxC : Nat) : Nat :=
  (n + gridColumns n maxC - 1) / gridColumns n maxC

/-- The paste loop of the composer: slot `i` is pasted at pixel origin
`((i % columns) * tile_width, (i // columns) * tile_height)`. -/
def pasteLoop (tw th cols : Nat) (rp : ResizeFn) : List (Option Image) → Nat → Image → Image
  | [], _, canvas => canvas
  | s :: rest, i, canvas =>
    pasteLoop tw th cols rp rest (i + 1)
      (canvas.pasteAt (slotImage tw th rp s) (i % cols * tw) (i / cols * th))

/-- Steps 3 to 5 of `create_tilesheet`: grid geometry, the blank canvas, and
the paste loop over the expanded slot sequence. -/
def composeGrid (slots : List (Option Image)) (maxC tw th : Nat) (rp : ResizeFn) : Image :=
  let n := slots.length
  let cols := gridColumns n maxC
  let rows := gridRows n maxC
  pasteLoop tw th cols rp slots 0 (Image.blank (cols * tw) (rows * th))

/-- `all_files` after the extension filter and `all_files.sort(key=natural_key)`. -/
def sortedFiles (files : List Filename) : List Filename :=
  (files.filter hasImageExt).insertionSort natLe

/-- The placeholder branch of `create_tilesheet`: build `index_to_file` and
`valid_indices` over the sorted files; abort (`none`) when no file has a
parseable index; otherwise produce, for every index from the minimum to the
maximum, either the file stored for it or a placeholder marker. -/
def expandedGapFill (sorted : List Filename) : Option (List (Option Filename)) :=
  let index_to_file := buildIndexMap sorted
  match validIndices sorted with
  | [] => none
  | v :: vs =>
    let min_idx := vs.foldl min v
    let max_idx := vs.foldl max v
    some ((List.range' min_idx (max_idx + 1 - min_idx)).map (fun i => dictLookup index_to_file i))

/-- Embedding of `create_tilesheet`.  `files` is the folder listing, `folder`
decodes a filename to its image, and `rp` is the library resize.  The result
is `none` exactly when the function returns before creating the canvas, and
`some` of the composed grid image otherwise. -/
def create_tilesheet (files : List Filename) (folder : Filename → Image) (fill_missing : Bool)
    (maxC tw th : Nat) (rp : ResizeFn) : Option Image :=
  if (files.filter hasImageExt).isEmpty then none
  else
    let sorted := sortedFiles files
    let expanded : Option (List (Option Filename)) :=
      if fill_missing then expandedGapFill sorted else some (sorted.map some)
    match expanded with
    | none => none
    | some efs => some (composeGrid (efs.map (fun o => o.map folder)) maxC tw th rp)

/-- Support definition: the list of maximal digit runs of a string, in
order.  It is proved below to agree with the digit tokens of the split. -/
def digitRuns : List Char → List (List Char)
  | [] => []
  | c :: cs =>
    if c.isDigit then
      match cs with
      | [] => [[c]]
      | d :: _ =>
        if d.isDigit then
          match digitRuns cs with
          | [] => [[c]]
          | r :: rest => (c :: r) :: rest
        else [c] :: digitRuns cs
    else digitRuns cs

/-- Support definition: a token list alternates, a text token (one that is
not a digit string) first when `textNext` is `true`, digit tokens at the
other positions. -/
def AltToks : Bool → List (List Char) → Prop
  | _, [] => True
  | true, t :: rest => pyIsDigit t = false ∧ AltToks false rest
  | false, t :: rest => pyIsDigit t = true ∧ AltToks true rest

/-- Support definition: a key list alternates between text elements and
integer elements, text first when `textNext` is `true`. -/
def KeyAlt : Bool → List KeyElem → Prop
  | _, [] => True
  | true, e :: rest => (∃ t, e = Sum.inl t) ∧ KeyAlt false rest
  | false, e :: rest => (∃ n, e = Sum.inr n) ∧ KeyAlt true rest

/-- Support definition: the maximal suffix whose characters all satisfy `p`. -/
def trailingWhile (p : Char → Bool) : List Char → List Char
  | [] => []
  | c :: s => if (c :: s).all p then c :: s else trailingWhile p s

/-- Support definition: the maximal all-digit suffix of a string. -/
def trailingRun (s : List Char) : List Char := trailingWhile Char.isDigit s

/-- Support definition: the canonical decimal representation of a positive
number (empty for zero), the proof-side twin of `natToStr`. -/
def natRep (n : Nat) : List Char :=
  if h : n = 0 then [] else natRep (n / 10) ++ [Nat.digitChar (n % 10)]
decreasing_by exact Nat.div_lt_self (Nat.pos_of_ne_zero h) (by omega)

example : parse_last_number "camping_04_12.png".toList = some 12 := by decide
example : parse_last_number "tenda10.jpg".toList = some 10 := by decide
example : parse_last_number "noNumbers.png".toList = none := by decide
example : natToStr 12 = ['1', '2'] := by decide
example : splitext "camping_04_12.png".toList = ("camping_04_12".toList, ".png".toList) := by
  decide
example : parsePrefix "camping_04_12.png".toList 12 = "camping_04_".toList := by decide


/-! ### Structure of the token split -/

theorem pyIsDigit_nil : pyIsDigit [] = false := rfl

theorem pyIsDigit_cons_false {c : Char} (t : List Char) (hc : c.isDigit = false) :
    pyIsDigit (c :: t) = false := by
  simp [pyIsDigit, hc]

theorem pyIsDigit_cons_true {c : Char} {t : List Char} (hc : c.isDigit = true)
    (ht : t.all Char.isDigit = true) : pyIsDigit (c :: t) = true := by
  simp only [pyIsDigit, List.isEmpty_cons, List.all_cons, hc, ht]
  rfl

theorem pyIsDigit_all {t : List Char} (h : pyIsDigit t = true) : t.all Char.isDigit = true := by
  simp only [pyIsDigit, Bool.and_eq_true] at h
  exact h.2

theorem pyIsDigit_ne_nil {t : List Char} (h : pyIsDigit t = true) : t ≠ [] := by
  intro he
  subst he
  simp [pyIsDigit] at h

theorem reSplit_ne_nil (s : List Char) : reSplitDigits s ≠ [] := by
  induction s with
  | nil => simp [reSplitDigits]
  | cons c cs ih =>
    rw [reSplitDigits]
    cases h : reSplitDigits cs with
    | nil => exact absurd h ih
    | cons t rs =>
      by_cases hc : c.isDigit
      · by_cases ht : t.isEmpty
        · cases rs with
          | nil => simp [hc, ht]
          | cons num rs' => simp [hc, ht]
        · simp [hc, ht]
      · simp [hc]

theorem reSplit_head_digit (d : Char) (cs : List Char) (hd : d.isDigit = true) :
    ∃ num rs, reSplitDigits (d :: cs) = [] :: num :: rs := by
  rw [reSplitDigits]
  cases h : reSplitDigits cs with
  | nil => exact absurd h (reSplit_ne_nil cs)
  | cons t rs =>
    by_cases ht : t.isEmpty
    · cases rs with
      | nil => exact ⟨[d], [[]], by simp [hd, ht]⟩
      | cons num rs' => exact ⟨d :: num, rs', by simp [hd, ht]⟩
    · exact ⟨[d], t :: rs, by simp [hd, ht]⟩

theorem reSplit_head_nondigit (c : Char) (cs : List Char) (hc : c.isDigit = false) :
    ∃ t rs, reSplitDigits cs = t :: rs ∧ reSplitDigits (c :: cs) = (c :: t) :: rs := by
  rw [reSplitDigits]
  cases h : reSplitDigits cs with
  | nil => exact absurd h (reSplit_ne_nil cs)
  | cons t rs => exact ⟨t, rs, rfl, by simp [hc]⟩

theorem reSplit_single {s : List Char} (h : reSplitDigits s = [[]]) : s = [] := by
  cases s with
  | nil => rfl
  | cons c cs =>
    by_cases hc : c.isDigit
    · obtain ⟨num, rs, hnum⟩ := reSplit_head_digit c cs hc
      rw [hnum] at h
      simp at h
    · obtain ⟨t, rs, _, hsplit⟩ := reSplit_head_nondigit c cs (by simpa using hc)
      rw [hsplit] at h
      simp at h

theorem reSplit_shape {s : List Char} {rs : List (List Char)}
    (h : reSplitDigits s = [] :: rs) :
    (s = [] ∧ rs = []) ∨ ∃ d tl, s = d :: tl ∧ d.isDigit = true := by
  cases s with
  | nil =>
    left
    refine ⟨rfl, ?_⟩
    rw [reSplitDigits] at h
    injection h with _ h2
    exact h2.symm
  | cons c cs =>
    by_cases hc : c.isDigit
    · exact Or.inr ⟨c, cs, rfl, hc⟩
    · obtain ⟨t, rs', _, hsplit⟩ := reSplit_head_nondigit c cs (by simpa using hc)
      rw [hsplit] at h
      simp at h


theorem digitRuns_cons_nondigit {c : Char} {cs : List Char} (hc : c.isDigit = false) :
    digitRuns (c :: cs) = digitRuns cs := by
  rw [digitRuns.eq_def]
  simp [hc]

theorem digitRuns_singleton_digit {c : Char} (hc : c.isDigit = true) :
    digitRuns [c] = [[c]] := by
  rw [digitRuns.eq_def]
  simp [hc]

theorem digitRuns_cons_digit_digit {c d : Char} {tl : List Char} (hc : c.isDigit = true)
    (hd : d.isDigit = true) :
    digitRuns (c :: d :: tl) =
      match digitRuns (d :: tl) with
      | [] => [[c]]
      | r :: rest => (c :: r) :: rest := by
  rw [digitRuns.eq_def]
  simp [hc, hd]

theorem digitRuns_cons_digit_nondigit {c d : Char} {tl : List Char} (hc : c.isDigit = true)
    (hd : d.isDigit = false) :
    digitRuns (c :: d :: tl) = [c] :: digitRuns (d :: tl) := by
  rw [digitRuns.eq_def]
  simp [hc, hd]

theorem reSplit_alt (s : List Char) : AltToks true (reSplitDigits s) := by
  induction s with
  | nil => simp [reSplitDigits, AltToks, pyIsDigit_nil]
  | cons c cs ih =>
    rw [reSplitDigits]
    cases h : reSplitDigits cs with
    | nil => exact absurd h (reSplit_ne_nil cs)
    | cons t rs =>
      rw [h] at ih
      have htTxt : pyIsDigit t = false := ih.1
      have hAltRs : AltToks false rs := ih.2
      by_cases hc : c.isDigit
      · by_cases ht : t.isEmpty
        · cases rs with
          | nil =>
            simp only [hc, ht, if_true]
            exact ⟨pyIsDigit_nil, by simp [pyIsDigit, hc], pyIsDigit_nil, trivial⟩
          | cons num rs' =>
            simp only [hc, ht, if_true]
            have hNum : pyIsDigit num = true := hAltRs.1
            refine ⟨pyIsDigit_nil, ?_, hAltRs.2⟩
            exact pyIsDigit_cons_true hc (pyIsDigit_all hNum)
        · simp only [hc, ht, if_true, if_false]
          exact ⟨pyIsDigit_nil, by simp [pyIsDigit, hc], htTxt, hAltRs⟩
      · have hc' : c.isDigit = false := by simpa using hc
        simp only [hc', Bool.false_eq_true, if_false]
        exact ⟨pyIsDigit_cons_false t hc', hAltRs⟩

theorem reSplit_filter (s : List Char) :
    (reSplitDigits s).filter pyIsDigit = digitRuns s := by
  induction s with
  | nil => simp [reSplitDigits, digitRuns, pyIsDigit_nil]
  | cons c cs ih =>
    have hAlt := reSplit_alt cs
    rw [reSplitDigits]
    cases h : reSplitDigits cs with
    | nil => exact absurd h (reSplit_ne_nil cs)
    | cons t rs =>
      rw [h] at ih hAlt
      have htTxt : pyIsDigit t = false := hAlt.1
      have hFil : List.filter pyIsDigit (t :: rs) = List.filter pyIsDigit rs := by
        simp [List.filter_cons, htTxt]
      rw [hFil] at ih
      by_cases hc : c.isDigit
      · by_cases ht : t.isEmpty
        · have ht' : t = [] := List.isEmpty_iff.mp ht
          subst ht'
          cases rs with
          | nil =>
            have hcs : cs = [] := reSplit_single h
            subst hcs
            simp only [hc, if_true]
            rw [digitRuns]
            simp [List.filter_cons, pyIsDigit_nil, pyIsDigit, hc]
          | cons num rs' =>
            have hNum : pyIsDigit num = true := hAlt.2.1
            obtain ⟨d, tl, hcs, hd⟩ :
                ∃ d tl, cs = d :: tl ∧ d.isDigit = true := by
              rcases reSplit_shape h with ⟨_, habs⟩ | hx
              · exact absurd habs (by simp)
              · exact hx
            simp only [hc, if_true, List.isEmpty_nil]
            rw [List.filter_cons, List.filter_cons]
            simp only [pyIsDigit_nil, pyIsDigit_cons_true hc (pyIsDigit_all hNum)]
            simp only [List.filter_cons, pyIsDigit_nil, hNum, if_true] at ih
            rw [hcs] at ih ⊢
            rw [digitRuns]
            simp only [hc, if_true, hd, ← ih]
            simp
        · have htne : t ≠ [] := fun he => ht (by simp [he])
          have hcsHead : cs = [] ∨ ∃ e tl, cs = e :: tl ∧ e.isDigit = false := by
            cases cs with
            | nil => exact Or.inl rfl
            | cons e tl =>
              by_cases he : e.isDigit
              · obtain ⟨num, rs2, hnum⟩ := reSplit_head_digit e tl he
                rw [hnum] at h
                injection h with h1 _
                exact absurd h1.symm htne
              · exact Or.inr ⟨e, tl, rfl, by simpa using he⟩
          simp only [hc, ht, if_true, Bool.false_eq_true, if_false]
          rw [List.filter_cons, List.filter_cons, List.filter_cons]
          simp only [pyIsDigit_nil, htTxt]
          have h1 : pyIsDigit [c] = true := by simp [pyIsDigit, hc]
          simp only [h1]
          rcases hcsHead with hnil | ⟨e, tl, hcs, he⟩
          · subst hnil
            rw [reSplitDigits] at h
            injection h with h1' _
            exact absurd h1'.symm htne
          · rw [hcs] at ih ⊢
            rw [digitRuns]
            simp only [hc, if_true, he, Bool.false_eq_true, if_false, ← ih]
      · have hc' : c.isDigit = false := by simpa using hc
        simp only [hc', Bool.false_eq_true, if_false]
        rw [List.filter_cons]
        simp only [pyIsDigit_cons_false t hc']
        rw [digitRuns_cons_nondigit hc']
        exact ih

theorem parse_last_number_eq (s : List Char) :
    parse_last_number s = ((digitRuns s).map digitsToNat).getLast? := by
  rw [parse_last_number, reSplit_filter]

/-! ### Digit runs, trailing runs, decimal strings -/

theorem digitRuns_eq_nil_iff (s : List Char) :
    digitRuns s = [] ↔ ∀ c ∈ s, c.isDigit = false := by
  induction s with
  | nil => simp [digitRuns]
  | cons c cs ih =>
    by_cases hc : c.isDigit
    · constructor
      · intro h
        exfalso
        cases cs with
        | nil => rw [digitRuns_singleton_digit hc] at h; simp at h
        | cons d tl =>
          by_cases hd : d.isDigit
          · rw [digitRuns_cons_digit_digit hc hd] at h
            cases hruns : digitRuns (d :: tl) with
            | nil => rw [hruns] at h; simp at h
            | cons r rest => rw [hruns] at h; simp at h
          · rw [digitRuns_cons_digit_nondigit hc (by simpa using hd)] at h
            simp at h
      · intro h
        exact absurd (h c (by simp)) (by simp [hc])
    · have hc' : c.isDigit = false := by simpa using hc
      rw [digitRuns_cons_nondigit hc', ih]
      constructor
      · intro h x hx
        rcases List.mem_cons.mp hx with rfl | hx'
        · exact hc'
        · exact h x hx'
      · intro h x hx
        exact h x (List.mem_cons_of_mem c hx)

theorem digitRuns_all_digit {s : List Char} (h : s.all Char.isDigit = true) (hne : s ≠ []) :
    digitRuns s = [s] := by
  induction s with
  | nil => exact absurd rfl hne
  | cons c cs ih =>
    rw [List.all_cons, Bool.and_eq_true] at h
    obtain ⟨hc, hcs⟩ := h
    cases cs with
    | nil => exact digitRuns_singleton_digit hc
    | cons d tl =>
      have hd : d.isDigit = true := by
        rw [List.all_cons, Bool.and_eq_true] at hcs
        exact hcs.1
      rw [digitRuns_cons_digit_digit hc hd, ih hcs (by simp)]

theorem digitRuns_append_nodigit {s e : List Char} (he : ∀ c ∈ e, c.isDigit = false) :
    digitRuns (s ++ e) = digitRuns s := by
  induction s with
  | nil =>
    simp only [List.nil_append]
    rw [(digitRuns_eq_nil_iff e).mpr he]
    rfl
  | cons c cs ih =>
    by_cases hc : c.isDigit
    · cases cs with
      | nil =>
        cases e with
        | nil => rfl
        | cons x e' =>
          have hx : x.isDigit = false := he x (by simp)
          simp only [List.singleton_append]
          rw [digitRuns_cons_digit_nondigit hc hx]
          rw [(digitRuns_eq_nil_iff (x :: e')).mpr he]
          rw [digitRuns_singleton_digit hc]
      | cons d tl =>
        by_cases hd : d.isDigit
        · simp only [List.cons_append] at ih ⊢
          rw [digitRuns_cons_digit_digit hc hd, digitRuns_cons_digit_digit hc hd, ih]
        · have hd' : d.isDigit = false := by simpa using hd
          simp only [List.cons_append] at ih ⊢
          rw [digitRuns_cons_digit_nondigit hc hd', digitRuns_cons_digit_nondigit hc hd', ih]
    · have hc' : c.isDigit = false := by simpa using hc
      simp only [List.cons_append]
      rw [digitRuns_cons_nondigit hc', digitRuns_cons_nondigit hc', ih]

theorem trailingWhile_all {p : Char → Bool} {s : List Char} (h : s.all p = true) :
    trailingWhile p s = s := by
  cases s with
  | nil => rfl
  | cons c cs => rw [trailingWhile, if_pos h]

theorem trailingWhile_sat (p : Char → Bool) (s : List Char) :
    (trailingWhile p s).all p = true := by
  induction s with
  | nil => rfl
  | cons c cs ih =>
    rw [trailingWhile]
    by_cases hall : (c :: cs).all p = true
    · rw [if_pos hall]; exact hall
    · rw [if_neg hall]; exact ih

theorem trailingWhile_suffix (p : Char → Bool) (s : List Char) :
    trailingWhile p s <:+ s := by
  induction s with
  | nil => exact List.suffix_rfl
  | cons c cs ih =>
    rw [trailingWhile]
    by_cases hall : (c :: cs).all p = true
    · rw [if_pos hall]
    · rw [if_neg hall]
      exact ih.trans (List.suffix_cons c cs)

theorem trailing_decomp (p : Char → Bool) (s : List Char) :
    ∃ q, s = q ++ trailingWhile p s ∧ (∀ c, q.getLast? = some c → p c = false) := by
  induction s with
  | nil => exact ⟨[], rfl, by simp⟩
  | cons c cs ih =>
    rw [trailingWhile]
    by_cases hall : (c :: cs).all p = true
    · rw [if_pos hall]
      exact ⟨[], rfl, by simp⟩
    · rw [if_neg hall]
      obtain ⟨q', hq', hlast'⟩ := ih
      refine ⟨c :: q', by rw [List.cons_append, ← hq'], ?_⟩
      intro x hx
      cases q' with
      | nil =>
        simp only [List.getLast?_singleton, Option.some.injEq] at hx
        rw [← hx]
        have hcs : cs.all p = true := by
          conv_lhs => rw [hq']
          simp only [List.nil_append]
          exact trailingWhile_sat p cs
        by_cases hpc : p c = true
        · exact absurd (by simp [List.all_cons, hpc, hcs]) hall
        · simpa using hpc
      | cons y q'' =>
        rw [List.getLast?_cons_cons] at hx
        exact hlast' x hx

theorem trailing_eq_nil_of_clean {p : Char → Bool} {s : List Char}
    (h : ∀ c, s.getLast? = some c → p c = false) : trailingWhile p s = [] := by
  induction s with
  | nil => rfl
  | cons c cs ih =>
    rw [trailingWhile]
    by_cases hall : (c :: cs).all p = true
    · exfalso
      obtain ⟨x, hx⟩ := Option.isSome_iff_exists.mp (List.getLast?_isSome.mpr
        (show (c :: cs) ≠ [] by simp))
      have hmem : x ∈ c :: cs := List.mem_of_mem_getLast? hx
      have := List.all_eq_true.mp hall x hmem
      rw [h x hx] at this
      exact Bool.false_ne_true this
    · rw [if_neg hall]
      cases cs with
      | nil => rfl
      | cons y tl =>
        apply ih
        intro x hx
        apply h
        rw [List.getLast?_cons_cons]
        exact hx

theorem digitRuns_append_run_clean {q e : List Char}
    (hclean : ∀ c, q.getLast? = some c → c.isDigit = false)
    (he : e.all Char.isDigit = true) (hne : e ≠ []) :
    digitRuns (q ++ e) = digitRuns q ++ [e] := by
  induction q with
  | nil =>
    simp only [List.nil_append]
    rw [digitRuns_all_digit he hne]
    rfl
  | cons c q' ih =>
    have hlast : ∀ x, q'.getLast? = some x → x.isDigit = false := by
      intro x hx
      apply hclean
      cases q' with
      | nil => simp at hx
      | cons y tl => rw [List.getLast?_cons_cons]; exact hx
    by_cases hc : c.isDigit
    · cases q' with
      | nil =>
        exfalso
        have h1 := hclean c (by simp)
        rw [hc] at h1
        simp at h1
      | cons d tl =>
        have ih' := ih hlast
        by_cases hd : d.isDigit
        · simp only [List.cons_append] at ih' ⊢
          rw [digitRuns_cons_digit_digit hc hd, digitRuns_cons_digit_digit hc hd, ih']
          have hne2 : digitRuns (d :: tl) ≠ [] := by
            intro h0
            have h1 := (digitRuns_eq_nil_iff _).mp h0 d (by simp)
            rw [hd] at h1
            simp at h1
          cases hruns : digitRuns (d :: tl) with
          | nil => exact absurd hruns hne2
          | cons r rest => simp
        · have hd' : d.isDigit = false := by simpa using hd
          simp only [List.cons_append] at ih' ⊢
          rw [digitRuns_cons_digit_nondigit hc hd', digitRuns_cons_digit_nondigit hc hd', ih']
          simp
    · have hc' : c.isDigit = false := by simpa using hc
      cases q' with
      | nil =>
        simp only [List.singleton_append]
        rw [digitRuns_cons_nondigit hc', digitRuns_all_digit he hne,
          digitRuns_cons_nondigit hc']
        simp [digitRuns]
      | cons d tl =>
        have ih' := ih hlast
        simp only [List.cons_append] at ih' ⊢
        rw [digitRuns_cons_nondigit hc', digitRuns_cons_nondigit hc', ih']

theorem digitRuns_getLast_append_run {p e : List Char} (he : e.all Char.isDigit = true)
    (hne : e ≠ []) :
    (digitRuns (p ++ e)).getLast? = some (trailingRun p ++ e) := by
  obtain ⟨q, hq, hclean⟩ := trailing_decomp Char.isDigit p
  have hq2 : p = q ++ trailingRun p := hq
  have hre : (trailingRun p ++ e).all Char.isDigit = true := by
    rw [List.all_append, Bool.and_eq_true]
    exact ⟨trailingWhile_sat Char.isDigit p, he⟩
  have hrene : trailingRun p ++ e ≠ [] := by
    intro h0
    exact hne (List.append_eq_nil.mp h0).2
  conv_lhs => rw [hq2, List.append_assoc]
  rw [digitRuns_append_run_clean hclean hre hrene]
  exact List.getLast?_concat _

/-! ### Facts about parse_last_number -/

theorem plm_none_iff (s : List Char) :
    parse_last_number s = none ↔ ∀ c ∈ s, c.isDigit = false := by
  rw [parse_last_number_eq, ← digitRuns_eq_nil_iff]
  constructor
  · intro h
    cases hruns : digitRuns s with
    | nil => rfl
    | cons r rest =>
      rw [hruns] at h
      simp only [List.map_cons] at h
      rw [List.getLast?_eq_none_iff] at h
      simp at h
  · intro h
    rw [h]
    rfl

theorem plm_append_nodigit {s e : List Char} (he : ∀ c ∈ e, c.isDigit = false) :
    parse_last_number (s ++ e) = parse_last_number s := by
  rw [parse_last_number_eq, parse_last_number_eq, digitRuns_append_nodigit he]

theorem plm_append_run {p e : List Char} (he : e.all Char.isDigit = true) (hne : e ≠ []) :
    parse_last_number (p ++ e) = some (digitsToNat (trailingRun p ++ e)) := by
  rw [parse_last_number_eq, List.getLast?_map, digitRuns_getLast_append_run he hne]
  rfl

theorem plm_trailing {s : List Char} (h : trailingRun s ≠ []) :
    parse_last_number s = some (digitsToNat (trailingRun s)) := by
  obtain ⟨q, hq, hclean⟩ := trailing_decomp Char.isDigit s
  have hq2 : s = q ++ trailingRun s := hq
  have hclean2 : trailingRun q = [] := trailing_eq_nil_of_clean hclean
  conv_lhs => rw [hq2]
  rw [plm_append_run (show (trailingRun s).all Char.isDigit = true from
    trailingWhile_sat Char.isDigit s) h]
  rw [show trailingRun q = [] from hclean2]
  rfl

/-! ### Decimal strings -/

theorem digitsToNat_foldl_acc (t : List Char) (acc : Nat) :
    t.foldl (fun a c => a * 10 + digitVal c) acc = acc * 10 ^ t.length + digitsToNat t := by
  induction t generalizing acc with
  | nil => simp [digitsToNat]
  | cons c t' ih =>
    have hcons : digitsToNat (c :: t') = digitVal c * 10 ^ t'.length + digitsToNat t' := by
      rw [digitsToNat, List.foldl_cons]
      rw [show ((0 : Nat) * 10 + digitVal c) = digitVal c from by omega]
      exact ih (digitVal c)
    rw [List.foldl_cons, ih, hcons]
    simp only [List.length_cons]
    ring

theorem digitsToNat_append (a b : List Char) :
    digitsToNat (a ++ b) = digitsToNat a * 10 ^ b.length + digitsToNat b := by
  rw [digitsToNat, List.foldl_append, ← digitsToNat, digitsToNat_foldl_acc]

theorem digitChar_isDigit {d : Nat} (h : d < 10) : (Nat.digitChar d).isDigit = true := by
  interval_cases d <;> decide

theorem digitVal_digitChar {d : Nat} (h : d < 10) : digitVal (Nat.digitChar d) = d := by
  interval_cases d <;> decide

theorem digitChar_digitVal {c : Char} (hc : c.isDigit = true) :
    Nat.digitChar (digitVal c) = c := by
  have hb : 48 ≤ c.toNat ∧ c.toNat ≤ 57 := by
    simpa only [Char.isDigit, Bool.and_eq_true, decide_eq_true_eq] using hc
  obtain ⟨h1, h2⟩ := hb
  rw [digitVal, ← Char.ofNat_toNat c]
  interval_cases h : c.toNat <;> decide

theorem digitVal_lt_ten {c : Char} (hc : c.isDigit = true) : digitVal c < 10 := by
  have hb : 48 ≤ c.toNat ∧ c.toNat ≤ 57 := by
    simpa only [Char.isDigit, Bool.and_eq_true, decide_eq_true_eq] using hc
  rw [digitVal]
  omega

theorem digitVal_pos_of_ne_zero {c : Char} (hc : c.isDigit = true) (h0 : c ≠ '0') :
    1 ≤ digitVal c := by
  have hb : 48 ≤ c.toNat ∧ c.toNat ≤ 57 := by
    simpa only [Char.isDigit, Bool.and_eq_true, decide_eq_true_eq] using hc
  have hne : c.toNat ≠ 48 := by
    intro h
    apply h0
    rw [← Char.ofNat_toNat c, h]
  rw [digitVal]
  omega

theorem natRep_zero : natRep 0 = [] := by
  rw [natRep]
  simp

theorem natRep_pos {n : Nat} (h : n ≠ 0) :
    natRep n = natRep (n / 10) ++ [Nat.digitChar (n % 10)] := by
  conv_lhs => rw [natRep]
  rw [dif_neg h]

theorem natRep_ne_nil {n : Nat} (h : n ≠ 0) : natRep n ≠ [] := by
  rw [natRep_pos h]
  simp

theorem natRep_all_digit (n : Nat) : (natRep n).all Char.isDigit = true := by
  induction n using Nat.strong_induction_on with
  | _ n ih =>
    by_cases h : n = 0
    · subst h; rw [natRep_zero]; rfl
    · rw [natRep_pos h, List.all_append, Bool.and_eq_true]
      refine ⟨ih (n / 10) (Nat.div_lt_self (Nat.pos_of_ne_zero h) (by omega)), ?_⟩
      simp [digitChar_isDigit (Nat.mod_lt n (show 0 < 10 by omega))]

theorem digitsToNat_natRep (n : Nat) : digitsToNat (natRep n) = n := by
  induction n using Nat.strong_induction_on with
  | _ n ih =>
    by_cases h : n = 0
    · subst h; rw [natRep_zero]; rfl
    · rw [natRep_pos h, digitsToNat_append]
      rw [ih (n / 10) (Nat.div_lt_self (Nat.pos_of_ne_zero h) (by omega))]
      have hd : digitsToNat [Nat.digitChar (n % 10)] =
          digitVal (Nat.digitChar (n % 10)) := by
        rw [digitsToNat]
        simp [List.foldl_cons]
      rw [hd, digitVal_digitChar (Nat.mod_lt n (show 0 < 10 by omega))]
      simp only [List.length_singleton, pow_one]
      omega

theorem natToStrAux_eq (fuel n : Nat) (acc : List Char) (h : n ≤ fuel) :
    natToStrAux fuel n acc = natRep n ++ acc := by
  induction fuel generalizing n acc with
  | zero =>
    have hn : n = 0 := by omega
    subst hn
    rw [natToStrAux, natRep_zero]
    rfl
  | succ fuel ih =>
    rw [natToStrAux]
    by_cases hn : n = 0
    · rw [if_pos hn, hn, natRep_zero]
      rfl
    · rw [if_neg hn]
      rw [ih (n / 10) _ (by omega)]
      rw [natRep_pos hn]
      simp

theorem natToStr_eq (n : Nat) : natToStr n = if n = 0 then ['0'] else natRep n := by
  rw [natToStr]
  by_cases h : n = 0
  · rw [if_pos h, if_pos h]
  · rw [if_neg h, if_neg h, natToStrAux_eq n n [] (le_refl n)]
    simp

theorem natToStr_ne_nil (n : Nat) : natToStr n ≠ [] := by
  rw [natToStr_eq]
  by_cases h : n = 0
  · rw [if_pos h]; simp
  · rw [if_neg h]; exact natRep_ne_nil h

theorem natToStr_all_digit (n : Nat) : (natToStr n).all Char.isDigit = true := by
  rw [natToStr_eq]
  by_cases h : n = 0
  · rw [if_pos h]; rfl
  · rw [if_neg h]; exact natRep_all_digit n

theorem digitsToNat_natToStr (n : Nat) : digitsToNat (natToStr n) = n := by
  rw [natToStr_eq]
  by_cases h : n = 0
  · rw [if_pos h, h]; rfl
  · rw [if_neg h]; exact digitsToNat_natRep n

/-! ### Canonical representation as a suffix -/

theorem digitsToNat_cons_zero (t : List Char) : digitsToNat ('0' :: t) = digitsToNat t := by
  have h : digitsToNat ('0' :: t) =
      List.foldl (fun acc c => acc * 10 + digitVal c) (0 * 10 + digitVal '0') t := rfl
  rw [h, show (0 * 10 + digitVal '0') = 0 from by decide]
  rfl

theorem digitsToNat_lower_bound (t : List Char) {c : Char} (hc : c.isDigit = true)
    (h0 : c ≠ '0') : 10 ^ t.length ≤ digitsToNat (c :: t) := by
  have h1 : digitsToNat (c :: t) = digitVal c * 10 ^ t.length + digitsToNat t := by
    have := digitsToNat_append [c] t
    simpa [digitsToNat] using this
  rw [h1]
  have := digitVal_pos_of_ne_zero hc h0
  nlinarith [Nat.zero_le (digitsToNat t)]

theorem natRep_digitsToNat {R : List Char} (hall : R.all Char.isDigit = true)
    (hne : R ≠ []) (hhead : ∀ c, R.head? = some c → c ≠ '0') :
    natRep (digitsToNat R) = R := by
  induction R using List.reverseRecOn with
  | nil => exact absurd rfl hne
  | append_singleton R' c ih =>
    rw [List.all_append, Bool.and_eq_true] at hall
    obtain ⟨hallR', hallc⟩ := hall
    have hcdig : c.isDigit = true := by simpa using hallc
    have hvc : digitVal c < 10 := digitVal_lt_ten hcdig
    rw [digitsToNat_append]
    have hdc : digitsToNat [c] = digitVal c := by
      rw [digitsToNat]
      simp [List.foldl_cons]
    rw [hdc]
    simp only [List.length_singleton, pow_one]
    cases R' with
    | nil =>
      have h0 : c ≠ '0' := hhead c (by simp)
      have hp := digitVal_pos_of_ne_zero hcdig h0
      rw [show digitsToNat [] * 10 + digitVal c = digitVal c from by simp [digitsToNat]]
      rw [natRep_pos (by omega)]
      rw [show digitVal c / 10 = 0 from by omega,
        show digitVal c % 10 = digitVal c from by omega]
      rw [natRep_zero, digitChar_digitVal hcdig]
    | cons x R'' =>
      have hheadx : ∀ y, (x :: R'').head? = some y → y ≠ '0' := by
        intro y hy
        apply hhead
        simp only [List.head?_cons, Option.some.injEq] at hy
        subst hy
        simp
      have hx0 : x ≠ '0' := hheadx x (by simp)
      have hxdig : x.isDigit = true := by
        have := List.all_eq_true.mp hallR' x (by simp)
        simpa using this
      have hlow : 1 ≤ digitsToNat (x :: R'') := by
        have hlb := digitsToNat_lower_bound R'' hxdig hx0
        have hp : 1 ≤ 10 ^ R''.length := Nat.one_le_pow _ _ (by omega)
        omega
      have h1 : (digitsToNat (x :: R'') * 10 + digitVal c) / 10 = digitsToNat (x :: R'') := by
        omega
      have h2 : (digitsToNat (x :: R'') * 10 + digitVal c) % 10 = digitVal c := by
        omega
      rw [natRep_pos (by omega), h1, h2, digitChar_digitVal hcdig]
      rw [ih hallR' (by simp) hheadx]

theorem natToStr_suffix {R : List Char} (hall : R.all Char.isDigit = true) (hne : R ≠ []) :
    natToStr (digitsToNat R) <:+ R := by
  induction R with
  | nil => exact absurd rfl hne
  | cons c R' ih =>
    rw [List.all_cons, Bool.and_eq_true] at hall
    obtain ⟨hc, hallR'⟩ := hall
    by_cases h0 : c = '0'
    · subst h0
      rw [digitsToNat_cons_zero]
      cases R' with
      | nil => decide
      | cons y R'' =>
        exact (ih hallR' (by simp)).trans (List.suffix_cons '0' (y :: R''))
    · have hcan : natRep (digitsToNat (c :: R')) = c :: R' := by
        apply natRep_digitsToNat
        · rw [List.all_cons, Bool.and_eq_true]
          exact ⟨hc, hallR'⟩
        · simp
        · intro y hy
          simp only [List.head?_cons, Option.some.injEq] at hy
          subst hy
          exact h0
      have hne0 : digitsToNat (c :: R') ≠ 0 := by
        have hlb := digitsToNat_lower_bound R' hc h0
        have hp : 1 ≤ 10 ^ R'.length := Nat.one_le_pow _ _ (by omega)
        omega
      rw [natToStr_eq, if_neg hne0, hcan]

/-! ### splitext and parsePrefix -/

theorem drop_takeWhile_head {p : Char → Bool} {l : List Char} {hd : Char} {tl : List Char}
    (h : l.drop (l.takeWhile p).length = hd :: tl) :
    p hd = false ∧ l = l.takeWhile p ++ hd :: tl := by
  induction l with
  | nil => simp at h
  | cons x xs ih =>
    by_cases hp : p x = true
    · rw [List.takeWhile_cons, if_pos hp] at h ⊢
      simp only [List.length_cons, List.drop_succ_cons] at h
      obtain ⟨h1, h2⟩ := ih h
      refine ⟨h1, ?_⟩
      rw [List.cons_append, ← h2]
    · have hp' : p x = false := by simpa using hp
      rw [List.takeWhile_cons, if_neg hp] at h ⊢
      simp only [List.length_nil, List.drop_zero] at h
      injection h with h1 h2
      subst h1
      subst h2
      exact ⟨hp', by simp⟩

theorem splitext_def (s : List Char) :
    splitext s =
      match s.reverse.drop ((s.reverse.takeWhile (fun c => c ≠ '.')).length) with
      | [] => (s, [])
      | _ :: baseRev =>
        if baseRev.any (fun c => c ≠ '.') then
          (baseRev.reverse, '.' :: (s.reverse.takeWhile (fun c => c ≠ '.')).reverse)
        else (s, []) := rfl

theorem splitext_join (s : List Char) : (splitext s).1 ++ (splitext s).2 = s := by
  rw [splitext_def]
  cases h : s.reverse.drop ((s.reverse.takeWhile (fun c => c ≠ '.')).length) with
  | nil => simp
  | cons hd baseRev =>
    obtain ⟨hhd, hdecomp⟩ := drop_takeWhile_head h
    have hhd' : hd = '.' := by simpa using hhd
    subst hhd'
    by_cases hany : baseRev.any (fun c => c ≠ '.') = true
    · simp only [hany, if_true]
      conv_rhs => rw [← List.reverse_reverse s, hdecomp]
      rw [List.reverse_append, List.reverse_cons]
      simp
    · have hany' : baseRev.any (fun c => c ≠ '.') = false := by simpa using hany
      simp only [hany', Bool.false_eq_true, if_false]
      simp

theorem parsePrefix_def (f : List Char) (n : Nat) :
    parsePrefix f n =
      if (natToStr n).isSuffixOf (splitext f).1 then
        (splitext f).1.take ((splitext f).1.length - (natToStr n).length)
      else (splitext f).1 := rfl

theorem plm_synth {pre e : List Char} (i : Nat)
    (hz : digitsToNat (trailingRun pre) = 0) (he : ∀ c ∈ e, c.isDigit = false) :
    parse_last_number (pre ++ natToStr i ++ e) = some i := by
  rw [plm_append_nodigit he]
  rw [plm_append_run (natToStr_all_digit i) (natToStr_ne_nil i)]
  rw [digitsToNat_append, hz, digitsToNat_natToStr]
  simp

theorem trailing_parsePrefix {f : List Char} {n : Nat}
    (hplm : parse_last_number f = some n)
    (hext : ∀ c ∈ (splitext f).2, c.isDigit = false) :
    digitsToNat (trailingRun (parsePrefix f n)) = 0 := by
  have hbase : parse_last_number ((splitext f).1) = some n := by
    conv at hplm => rw [← splitext_join f]
    rw [plm_append_nodigit hext] at hplm
    exact hplm
  by_cases hsuf : (natToStr n).isSuffixOf (splitext f).1 = true
  · have hs : natToStr n <:+ (splitext f).1 := List.isSuffixOf_iff_suffix.mp hsuf
    obtain ⟨pre, hpre⟩ := hs
    have htake : (splitext f).1.take ((splitext f).1.length - (natToStr n).length) = pre := by
      rw [← hpre, List.length_append]
      rw [show pre.length + (natToStr n).length - (natToStr n).length = pre.length from by omega]
      exact List.take_left pre (natToStr n)
    rw [parsePrefix_def, if_pos hsuf, htake]
    rw [← hpre] at hbase
    rw [plm_append_run (natToStr_all_digit n) (natToStr_ne_nil n)] at hbase
    rw [digitsToNat_append, digitsToNat_natToStr] at hbase
    have hinj : digitsToNat (trailingRun pre) * 10 ^ (natToStr n).length + n = n := by
      injection hbase
    have hp : 0 < 10 ^ (natToStr n).length := by positivity
    have h0 : digitsToNat (trailingRun pre) * 10 ^ (natToStr n).length = 0 := by omega
    rcases Nat.mul_eq_zero.mp h0 with h | h
    · exact h
    · omega
  · rw [parsePrefix_def, if_neg hsuf]
    by_contra hnz
    have htne : trailingRun ((splitext f).1) ≠ [] := by
      intro h0
      rw [h0] at hnz
      exact hnz rfl
    have hplmb := plm_trailing htne
    rw [hbase] at hplmb
    have hn : digitsToNat (trailingRun ((splitext f).1)) = n := by
      injection hplmb.symm
    have hsfx : natToStr n <:+ trailingRun ((splitext f).1) := by
      rw [← hn]
      exact natToStr_suffix (show (trailingRun ((splitext f).1)).all Char.isDigit = true from
        trailingWhile_sat Char.isDigit _) htne
    have hsb : natToStr n <:+ (splitext f).1 :=
      hsfx.trans (trailingWhile_suffix Char.isDigit _)
    exact hsuf (List.isSuffixOf_iff_suffix.mpr hsb)

/-! ### Lowercasing and image extensions -/

theorem isDigit_toNat_iff (c : Char) : c.isDigit = true ↔ 48 ≤ c.toNat ∧ c.toNat ≤ 57 := by
  simp only [Char.isDigit, Bool.and_eq_true, decide_eq_true_eq]
  exact ⟨fun ⟨a, b⟩ => ⟨a, b⟩, fun ⟨a, b⟩ => ⟨a, b⟩⟩

theorem toLower_upper_toNat {c : Char} (h1 : 65 ≤ c.toNat) (h2 : c.toNat ≤ 90) :
    (c.toLower).toNat = c.toNat + 32 := by
  rw [Char.toLower, if_pos ⟨h1, h2⟩]
  rw [Char.ofNat, dif_pos (show Nat.isValidChar (c.toNat + 32) from Or.inl (by omega))]
  rfl

theorem toLower_not_upper {c : Char} (h : ¬(65 ≤ c.toNat ∧ c.toNat ≤ 90)) :
    c.toLower = c := by
  rw [Char.toLower, if_neg h]

theorem isDigit_toLower (c : Char) : (c.toLower).isDigit = c.isDigit := by
  by_cases h : 65 ≤ c.toNat ∧ c.toNat ≤ 90
  · have ht := toLower_upper_toNat h.1 h.2
    have hl : (c.toLower).isDigit = false := by
      rw [← Bool.not_eq_true]
      intro hd
      have := (isDigit_toNat_iff _).mp hd
      omega
    have hr : c.isDigit = false := by
      rw [← Bool.not_eq_true]
      intro hd
      have := (isDigit_toNat_iff _).mp hd
      omega
    rw [hl, hr]
  · rw [toLower_not_upper h]

theorem toLower_eq_dot {c : Char} (h : c.toLower = '.') : c = '.' := by
  by_cases hu : 65 ≤ c.toNat ∧ c.toNat ≤ 90
  · exfalso
    have ht := toLower_upper_toNat hu.1 hu.2
    rw [h] at ht
    have hdot : ('.' : Char).toNat = 46 := by decide
    omega
  · rw [← toLower_not_upper hu, h]

theorem toLower_mem_ne_dot {c : Char} {w : List Char}
    (hw : ∀ x ∈ w, x ≠ '.' ∧ x.isDigit = false) (hm : c.toLower ∈ w) : c ≠ '.' := by
  intro hc
  subst hc
  have : ('.' : Char).toLower = '.' := by decide
  rw [this] at hm
  exact (hw '.' hm).1 rfl

theorem splitext_of_lower_suffix {f w : List Char}
    (hw : ∀ c ∈ w, c ≠ '.' ∧ c.isDigit = false)
    (hsuf : ('.' :: w) <:+ lowerStr f) :
    ((splitext f).2 = [] ∧ ∀ c ∈ f, c.isDigit = false) ∨
      lowerStr (splitext f).2 = '.' :: w := by
  obtain ⟨t, ht⟩ := hsuf
  rw [lowerStr] at ht
  obtain ⟨f₁, f₂', hf, hmap₁, hmap₂⟩ := List.map_eq_append_iff.mp ht.symm
  cases f₂' with
  | nil => simp at hmap₂
  | cons d f₂ =>
    rw [List.map_cons] at hmap₂
    injection hmap₂ with hd hmap₂
    have hd' : d = '.' := toLower_eq_dot hd
    subst hd'
    have hf₂dot : ∀ c ∈ f₂, (fun c => decide (c ≠ '.')) c = true := by
      intro c hc
      simp only [decide_eq_true_eq]
      exact toLower_mem_ne_dot hw (hmap₂ ▸ List.mem_map_of_mem Char.toLower hc)
    have hf₂dig : ∀ c ∈ f₂, c.isDigit = false := by
      intro c hc
      have hmem : c.toLower ∈ w := hmap₂ ▸ List.mem_map_of_mem Char.toLower hc
      rw [← isDigit_toLower]
      exact (hw _ hmem).2
    have hrev : f.reverse = f₂.reverse ++ '.' :: f₁.reverse := by
      rw [hf]
      simp
    have htw : f.reverse.takeWhile (fun c => c ≠ '.') = f₂.reverse := by
      rw [hrev, List.takeWhile_append]
      have hall : List.takeWhile (fun c => decide (c ≠ '.')) f₂.reverse = f₂.reverse :=
        List.takeWhile_eq_self_iff.mpr (fun x hx => hf₂dot x (List.mem_reverse.mp hx))
      rw [if_pos (by rw [hall])]
      rw [List.takeWhile_cons]
      simp [hall]
    have hdrop : f.reverse.drop ((f.reverse.takeWhile (fun c => c ≠ '.')).length) =
        '.' :: f₁.reverse := by
      rw [htw, hrev, List.drop_left]
    rw [splitext_def, hdrop]
    by_cases hany : f₁.reverse.any (fun c => c ≠ '.') = true
    · right
      simp only [hany, if_true]
      rw [htw, lowerStr, List.map_cons, List.reverse_reverse]
      rw [show ('.' : Char).toLower = '.' from by decide, hmap₂]
    · left
      have hany' : f₁.reverse.any (fun c => c ≠ '.') = false := by simpa using hany
      simp only [hany', Bool.false_eq_true, if_false]
      refine ⟨trivial, ?_⟩
      have hf₁dot : ∀ c ∈ f₁, c = '.' := by
        intro c hc
        have := List.any_eq_false.mp hany' c (List.mem_reverse.mpr hc)
        simpa using this
      intro c hc
      rw [hf] at hc
      rcases List.mem_append.mp hc with h1 | h2
      · rw [hf₁dot c h1]
        decide
      · rcases List.mem_cons.mp h2 with rfl | h3
        · decide
        · exact hf₂dig c h3

theorem ext_spec {f : List Char} (himg : hasImageExt f = true)
    (hplm : parse_last_number f ≠ none) :
    lowerStr (splitext f).2 = ".png".toList ∨ lowerStr (splitext f).2 = ".jpg".toList ∨
      lowerStr (splitext f).2 = ".jpeg".toList := by
  have hdig : ¬∀ c ∈ f, c.isDigit = false := fun h => hplm ((plm_none_iff f).mpr h)
  rw [hasImageExt, Bool.or_eq_true, Bool.or_eq_true] at himg
  rcases himg with (h | h) | h
  · left
    have hsuf : ('.' :: "png".toList) <:+ lowerStr f :=
      List.isSuffixOf_iff_suffix.mp h
    rcases splitext_of_lower_suffix (by decide) hsuf with ⟨_, habs⟩ | hgood
    · exact absurd habs hdig
    · exact hgood
  · right; left
    have hsuf : ('.' :: "jpg".toList) <:+ lowerStr f :=
      List.isSuffixOf_iff_suffix.mp h
    rcases splitext_of_lower_suffix (by decide) hsuf with ⟨_, habs⟩ | hgood
    · exact absurd habs hdig
    · exact hgood
  · right; right
    have hsuf : ('.' :: "jpeg".toList) <:+ lowerStr f :=
      List.isSuffixOf_iff_suffix.mp h
    rcases splitext_of_lower_suffix (by decide) hsuf with ⟨_, habs⟩ | hgood
    · exact absurd habs hdig
    · exact hgood

theorem ext_nodigit {f : List Char} (himg : hasImageExt f = true)
    (hplm : parse_last_number f ≠ none) : ∀ c ∈ (splitext f).2, c.isDigit = false := by
  intro c hc
  have hmem : c.toLower ∈ lowerStr (splitext f).2 := List.mem_map_of_mem Char.toLower hc
  rw [← isDigit_toLower]
  rcases ext_spec himg hplm with h | h | h <;> rw [h] at hmem <;>
    · rcases (by simpa using hmem : _) with h' | h' | h' | h' <;> first
        | (rw [h']; decide)
        | (rcases h' with h'' | h''
           · rw [h'']
             decide
           · rw [h'']
             decide)

/-! ### Python min/max over a nonempty list -/

theorem foldl_min_mem (ks : List Nat) : ∀ k : Nat, ks.foldl min k ∈ k :: ks := by
  induction ks with
  | nil => intro k; simp
  | cons a ks' ih =>
    intro k
    rw [List.foldl_cons]
    rcases List.mem_cons.mp (ih (min k a)) with h | h
    · rcases Nat.le_total k a with hka | hak
      · rw [h, Nat.min_eq_left hka]
        simp
      · rw [h, Nat.min_eq_right hak]
        simp
    · simp [h]

theorem foldl_min_le (ks : List Nat) : ∀ k : Nat, ∀ x ∈ k :: ks, ks.foldl min k ≤ x := by
  induction ks with
  | nil =>
    intro k x hx
    rw [List.mem_singleton.mp hx]
    simp
  | cons a ks' ih =>
    intro k x hx
    rw [List.foldl_cons]
    have hmin : ks'.foldl min (min k a) ≤ min k a := ih (min k a) (min k a) (by simp)
    rcases List.mem_cons.mp hx with h | hx'
    · rw [h]
      exact hmin.trans (Nat.min_le_left k a)
    · rcases List.mem_cons.mp hx' with h | hx''
      · rw [h]
        exact hmin.trans (Nat.min_le_right k a)
      · exact ih (min k a) x (List.mem_cons_of_mem _ hx'')

theorem foldl_max_mem (ks : List Nat) : ∀ k : Nat, ks.foldl max k ∈ k :: ks := by
  induction ks with
  | nil => intro k; simp
  | cons a ks' ih =>
    intro k
    rw [List.foldl_cons]
    rcases List.mem_cons.mp (ih (max k a)) with h | h
    · rcases Nat.le_total k a with hka | hak
      · rw [h, Nat.max_eq_right hka]
        simp
      · rw [h, Nat.max_eq_left hak]
        simp
    · simp [h]

theorem foldl_max_ge (ks : List Nat) : ∀ k : Nat, ∀ x ∈ k :: ks, x ≤ ks.foldl max k := by
  induction ks with
  | nil =>
    intro k x hx
    rw [List.mem_singleton.mp hx]
    simp
  | cons a ks' ih =>
    intro k x hx
    rw [List.foldl_cons]
    have hmax : max k a ≤ ks'.foldl max (max k a) := ih (max k a) (max k a) (by simp)
    rcases List.mem_cons.mp hx with h | hx'
    · rw [h]
      exact (Nat.le_max_left k a).trans hmax
    · rcases List.mem_cons.mp hx' with h | hx''
      · rw [h]
        exact (Nat.le_max_right k a).trans hmax
      · exact ih (max k a) x (List.mem_cons_of_mem _ hx'')

/-! ### Dictionary lemmas -/

theorem dictInsert_ne_nil (k : Nat) (v : Filename) (d : List (Nat × Filename)) :
    dictInsert k v d ≠ [] := by
  cases d with
  | nil => simp [dictInsert]
  | cons p d' =>
    obtain ⟨k', v'⟩ := p
    rw [dictInsert]
    by_cases h : k = k' <;> simp [h]

theorem dictLookup_insert_self (d : List (Nat × Filename)) (k : Nat) (v : Filename) :
    dictLookup (dictInsert k v d) k = some v := by
  induction d with
  | nil => simp [dictInsert, dictLookup]
  | cons p d' ih =>
    obtain ⟨k', v'⟩ := p
    rw [dictInsert]
    by_cases h : k = k'
    · rw [if_pos h, dictLookup, if_pos rfl]
    · rw [if_neg h, dictLookup, if_neg h]
      exact ih

theorem dictLookup_insert_ne (d : List (Nat × Filename)) {j k : Nat} (v : Filename)
    (h : j ≠ k) : dictLookup (dictInsert k v d) j = dictLookup d j := by
  induction d with
  | nil => simp [dictInsert, dictLookup, h]
  | cons p d' ih =>
    obtain ⟨k', v'⟩ := p
    rw [dictInsert]
    by_cases hkk : k = k'
    · subst hkk
      rw [if_pos rfl, dictLookup, if_neg h, dictLookup, if_neg h]
    · rw [if_neg hkk, dictLookup, dictLookup]
      by_cases hjk : j = k'
      · rw [if_pos hjk, if_pos hjk]
      · rw [if_neg hjk, if_neg hjk]
        exact ih

theorem mem_keys_iff_hasKey (d : List (Nat × Filename)) (k : Nat) :
    k ∈ d.map Prod.fst ↔ hasKey d k = true := by
  induction d with
  | nil => simp [hasKey, dictLookup]
  | cons p d' ih =>
    obtain ⟨k', v'⟩ := p
    rw [hasKey, dictLookup]
    by_cases h : k = k'
    · subst h
      simp
    · simp only [List.map_cons, List.mem_cons, if_neg h]
      rw [← hasKey]
      constructor
      · intro hx
        rcases hx with hx | hx
        · exact absurd hx h
        · exact ih.mp hx
      · intro hx
        exact Or.inr (ih.mpr hx)

theorem insertStep_some {f : Filename} {j : Nat} (d : List (Nat × Filename))
    (h : parse_last_number f = some j) : insertStep d f = dictInsert j f d := by
  rw [insertStep, h]

theorem insertStep_none {f : Filename} (d : List (Nat × Filename))
    (h : parse_last_number f = none) : insertStep d f = d := by
  rw [insertStep, h]

theorem foldl_insertStep_ne_nil (fs : List Filename) :
    ∀ d : List (Nat × Filename), d ≠ [] → fs.foldl insertStep d ≠ [] := by
  induction fs with
  | nil => intro d hd; simpa using hd
  | cons f fs' ih =>
    intro d hd
    rw [List.foldl_cons]
    apply ih
    cases hplm : parse_last_number f with
    | none => rw [insertStep_none d hplm]; exact hd
    | some j => rw [insertStep_some d hplm]; exact dictInsert_ne_nil j f d

theorem buildIndexMap_eq_nil_iff (fs : List Filename) :
    buildIndexMap fs = [] ↔ ∀ f ∈ fs, parse_last_number f = none := by
  rw [buildIndexMap]
  induction fs with
  | nil => simp
  | cons f fs' ih =>
    rw [List.foldl_cons]
    cases hplm : parse_last_number f with
    | none =>
      rw [insertStep_none [] hplm]
      rw [ih]
      constructor
      · intro h x hx
        rcases List.mem_cons.mp hx with rfl | hx'
        · exact hplm
        · exact h x hx'
      · intro h x hx
        exact h x (List.mem_cons_of_mem f hx)
    | some j =>
      rw [insertStep_some [] hplm]
      constructor
      · intro h
        exact absurd h (foldl_insertStep_ne_nil fs' _ (dictInsert_ne_nil j f []))
      · intro h
        have := h f (by simp)
        rw [hplm] at this
        exact absurd this (by simp)

theorem foldl_insert_lookup (fs : List Filename) (i : Nat) :
    ∀ d : List (Nat × Filename),
      dictLookup (fs.foldl insertStep d) i =
        match (fs.filter (fun f => decide (parse_last_number f = some i))).getLast? with
        | some f => some f
        | none => dictLookup d i := by
  induction fs with
  | nil => intro d; simp
  | cons f fs' ih =>
    intro d
    rw [List.foldl_cons, List.filter_cons]
    cases hplm : parse_last_number f with
    | none =>
      rw [insertStep_none d hplm]
      rw [if_neg (by simp [hplm])]
      exact ih d
    | some j =>
      by_cases hij : j = i
      · subst hij
        rw [if_pos (by simp [hplm])]
        rw [insertStep_some d hplm]
        rw [ih (dictInsert j f d)]
        cases hfil : (fs'.filter (fun f => decide (parse_last_number f = some j))).getLast? with
        | some g =>
          cases hfl : fs'.filter (fun f => decide (parse_last_number f = some j)) with
          | nil => rw [hfl] at hfil; simp at hfil
          | cons x l =>
            rw [hfl] at hfil
            rw [List.getLast?_cons_cons, hfil]
        | none =>
          have hfl : fs'.filter (fun f => decide (parse_last_number f = some j)) = [] :=
            List.getLast?_eq_none_iff.mp hfil
          rw [hfl]
          simp only [List.getLast?_singleton]
          exact dictLookup_insert_self d j f
      · rw [if_neg (by simp [hplm, hij])]
        rw [insertStep_some d hplm]
        rw [ih (dictInsert j f d)]
        cases hfil : (fs'.filter (fun f => decide (parse_last_number f = some i))).getLast? with
        | some g => rfl
        | none =>
          simp only
          exact dictLookup_insert_ne d f (fun h => hij h.symm)

theorem dictLookup_buildIndexMap (fs : List Filename) (i : Nat) :
    dictLookup (buildIndexMap fs) i =
      (fs.filter (fun f => decide (parse_last_number f = some i))).getLast? := by
  rw [buildIndexMap, foldl_insert_lookup fs i []]
  cases hfil : (fs.filter (fun f => decide (parse_last_number f = some i))).getLast? with
  | some g => rfl
  | none => rfl

theorem hasKey_buildIndexMap (fs : List Filename) (i : Nat) :
    hasKey (buildIndexMap fs) i = true ↔ ∃ f ∈ fs, parse_last_number f = some i := by
  rw [hasKey, dictLookup_buildIndexMap]
  rw [Option.isSome_iff_exists]
  constructor
  · rintro ⟨g, hg⟩
    have hmem : g ∈ fs.filter (fun f => decide (parse_last_number f = some i)) :=
      List.mem_of_mem_getLast? hg
    rw [List.mem_filter] at hmem
    exact ⟨g, hmem.1, by simpa using hmem.2⟩
  · rintro ⟨g, hgmem, hgplm⟩
    have hne : fs.filter (fun f => decide (parse_last_number f = some i)) ≠ [] := by
      intro h0
      have := List.filter_eq_nil_iff.mp h0 g hgmem
      simp [hgplm] at this
    obtain ⟨x, hx⟩ := Option.isSome_iff_exists.mp (List.getLast?_isSome.mpr hne)
    exact ⟨x, hx⟩

/-! ### Grid geometry -/

theorem slotImage_width (tw th : Nat) (rp : ResizeFn) (s : Option Image) :
    (slotImage tw th rp s).width = tw := by
  cases s with
  | none => rfl
  | some im =>
    rw [slotImage]
    by_cases h : im.width = tw ∧ im.height = th
    · rw [if_pos h]
      exact h.1
    · rw [if_neg h]

theorem slotImage_height (tw th : Nat) (rp : ResizeFn) (s : Option Image) :
    (slotImage tw th rp s).height = th := by
  cases s with
  | none => rfl
  | some im =>
    rw [slotImage]
    by_cases h : im.width = tw ∧ im.height = th
    · rw [if_pos h]
      exact h.2
    · rw [if_neg h]

theorem pasteAt_pixel_in (canvas tile : Image) (x y px py : Nat) (hx1 : x ≤ px)
    (hx2 : px < x + tile.width) (hy1 : y ≤ py) (hy2 : py < y + tile.height) :
    (canvas.pasteAt tile x y).pixel (px, py) = tile.pixel (px - x, py - y) := by
  rw [Image.pasteAt]
  exact if_pos ⟨hx1, hx2, hy1, hy2⟩

theorem pasteAt_pixel_out (canvas tile : Image) (x y px py : Nat)
    (h : ¬(x ≤ px ∧ px < x + tile.width ∧ y ≤ py ∧ py < y + tile.height)) :
    (canvas.pasteAt tile x y).pixel (px, py) = canvas.pixel (px, py) := by
  rw [Image.pasteAt]
  exact if_neg h

theorem pasteAt_width (canvas tile : Image) (x y : Nat) :
    (canvas.pasteAt tile x y).width = canvas.width := rfl

theorem pasteAt_height (canvas tile : Image) (x y : Nat) :
    (canvas.pasteAt tile x y).height = canvas.height := rfl

theorem cell_div_eq {tw a b dx : Nat}
    (hdx : dx < tw) (h1 : b * tw ≤ a * tw + dx) (h2 : a * tw + dx < b * tw + tw) : a = b := by
  rcases Nat.lt_trichotomy a b with h | h | h
  · exfalso
    have hmul : (a + 1) * tw ≤ b * tw := Nat.mul_le_mul_right tw h
    have hlt : a * tw + dx < b * tw := by
      have he : (a + 1) * tw = a * tw + tw := by ring
      omega
    omega
  · exact h
  · exfalso
    have hmul : (b + 1) * tw ≤ a * tw := Nat.mul_le_mul_right tw h
    have he : (b + 1) * tw = b * tw + tw := by ring
    omega

theorem paste_other_cell {cols tw th : Nat} {i j dx dy : Nat}
    (hdx : dx < tw) (hdy : dy < th) (hij : i ≠ j) (canvas tile : Image)
    (hw : tile.width = tw) (hh : tile.height = th) :
    (canvas.pasteAt tile (j % cols * tw) (j / cols * th)).pixel
        (i % cols * tw + dx, i / cols * th + dy) =
      canvas.pixel (i % cols * tw + dx, i / cols * th + dy) := by
  apply pasteAt_pixel_out
  rw [hw, hh]
  rintro ⟨h1, h2, h3, h4⟩
  have hcol : i % cols = j % cols := cell_div_eq hdx h1 h2
  have hrow : i / cols = j / cols := cell_div_eq hdy h3 h4
  apply hij
  have hi := Nat.div_add_mod i cols
  have hj := Nat.div_add_mod j cols
  rw [hcol, hrow] at hi
  omega

theorem pasteLoop_width (tw th cols : Nat) (rp : ResizeFn) (slots : List (Option Image)) :
    ∀ (i0 : Nat) (canvas : Image),
      (pasteLoop tw th cols rp slots i0 canvas).width = canvas.width := by
  induction slots with
  | nil => intro i0 canvas; rfl
  | cons s rest ih =>
    intro i0 canvas
    rw [pasteLoop, ih]
    rfl

theorem pasteLoop_height (tw th cols : Nat) (rp : ResizeFn) (slots : List (Option Image)) :
    ∀ (i0 : Nat) (canvas : Image),
      (pasteLoop tw th cols rp slots i0 canvas).height = canvas.height := by
  induction slots with
  | nil => intro i0 canvas; rfl
  | cons s rest ih =>
    intro i0 canvas
    rw [pasteLoop, ih]
    rfl

theorem pasteLoop_pixel_out (tw th cols : Nat) (rp : ResizeFn)
    (slots : List (Option Image)) :
    ∀ (i0 : Nat) (canvas : Image) (i dx dy : Nat), dx < tw → dy < th →
      (i < i0 ∨ i0 + slots.length ≤ i) →
      (pasteLoop tw th cols rp slots i0 canvas).pixel
          (i % cols * tw + dx, i / cols * th + dy) =
        canvas.pixel (i % cols * tw + dx, i / cols * th + dy) := by
  induction slots with
  | nil => intro i0 canvas i dx dy _ _ _; rfl
  | cons s rest ih =>
    intro i0 canvas i dx dy hdx hdy hrange
    rw [pasteLoop]
    rw [ih (i0 + 1) _ i dx dy hdx hdy (by simp only [List.length_cons] at hrange; omega)]
    exact paste_other_cell hdx hdy (by simp only [List.length_cons] at hrange; omega) canvas _
      (slotImage_width tw th rp s) (slotImage_height tw th rp s)

theorem pasteLoop_pixel_at (tw th cols : Nat) (rp : ResizeFn)
    (slots : List (Option Image)) :
    ∀ (i0 : Nat) (canvas : Image) (k dx dy : Nat) (hk : k < slots.length), dx < tw → dy < th →
      (pasteLoop tw th cols rp slots i0 canvas).pixel
          ((i0 + k) % cols * tw + dx, (i0 + k) / cols * th + dy) =
        (slotImage tw th rp (slots.get ⟨k, hk⟩)).pixel (dx, dy) := by
  induction slots with
  | nil => intro i0 canvas k dx dy hk; exact absurd hk (by simp)
  | cons s rest ih =>
    intro i0 canvas k dx dy hk hdx hdy
    rw [pasteLoop]
    cases k with
    | zero =>
      simp only [Nat.add_zero, List.get]
      rw [pasteLoop_pixel_out tw th cols rp rest (i0 + 1) _ i0 dx dy hdx hdy (by omega)]
      rw [pasteAt_pixel_in]
      · congr 1
        rw [Prod.mk.injEq]
        constructor <;> omega
      · exact Nat.le_add_right _ dx
      · rw [slotImage_width]
        omega
      · exact Nat.le_add_right _ dy
      · rw [slotImage_height]
        omega
    | succ k' =>
      have hk' : k' < rest.length := by simpa using hk
      have hidx : i0 + (k' + 1) = (i0 + 1) + k' := by omega
      rw [hidx]
      rw [ih (i0 + 1) _ k' dx dy hk' hdx hdy]
      rfl

theorem composeGrid_width (slots : List (Option Image)) (maxC tw th : Nat) (rp : ResizeFn) :
    (composeGrid slots maxC tw th rp).width = gridColumns slots.length maxC * tw := by
  rw [composeGrid, pasteLoop_width]
  rfl

theorem composeGrid_height (slots : List (Option Image)) (maxC tw th : Nat) (rp : ResizeFn) :
    (composeGrid slots maxC tw th rp).height = gridRows slots.length maxC * th := by
  rw [composeGrid, pasteLoop_height]
  rfl

theorem composeGrid_pixel (slots : List (Option Image)) (maxC tw th : Nat) (rp : ResizeFn)
    (k dx dy : Nat) (hk : k < slots.length) (hdx : dx < tw) (hdy : dy < th) :
    (composeGrid slots maxC tw th rp).pixel
        (k % gridColumns slots.length maxC * tw + dx,
          k / gridColumns slots.length maxC * th + dy) =
      (slotImage tw th rp (slots.get ⟨k, hk⟩)).pixel (dx, dy) := by
  rw [composeGrid]
  have h := pasteLoop_pixel_at tw th (gridColumns slots.length maxC) rp slots 0
    (Image.blank (gridColumns slots.length maxC * tw) (gridRows slots.length maxC * th))
    k dx dy hk hdx hdy
  simpa using h

/-! ### Natural-sort keys: alternation and comparability -/

theorem altToks_keyAlt : ∀ (toks : List (List Char)) (b : Bool), AltToks b toks →
    KeyAlt b (toks.map (fun t => if pyIsDigit t then Sum.inr (digitsToNat t) else Sum.inl t)) := by
  intro toks
  induction toks with
  | nil => intro b _; cases b <;> trivial
  | cons t rest ih =>
    intro b halt
    cases b with
    | true =>
      obtain ⟨ht, hrest⟩ := halt
      rw [List.map_cons]
      refine ⟨?_, ih false hrest⟩
      rw [if_neg (by simp [ht])]
      exact ⟨t, rfl⟩
    | false =>
      obtain ⟨ht, hrest⟩ := halt
      rw [List.map_cons]
      refine ⟨?_, ih true hrest⟩
      rw [if_pos ht]
      exact ⟨digitsToNat t, rfl⟩

theorem keyAlt_natural_key (s : List Char) : KeyAlt true (natural_key s) :=
  altToks_keyAlt (reSplitDigits s) true (reSplit_alt s)

theorem pyCmpKey_cons (e₁ e₂ : KeyElem) (as bs : List KeyElem) :
    pyCmpKey (e₁ :: as) (e₂ :: bs) =
      match pyCmpElem e₁ e₂ with
      | none => none
      | some .eq => pyCmpKey as bs
      | some o => some o := rfl

theorem cmpCharList_cons (a b : Char) (as bs : List Char) :
    cmpCharList (a :: as) (b :: bs) =
      match cmpChar a b with
      | .eq => cmpCharList as bs
      | o => o := rfl

theorem pyCmpKey_isSome_of_alt : ∀ (k₁ : List KeyElem) (b : Bool) (k₂ : List KeyElem),
    KeyAlt b k₁ → KeyAlt b k₂ → (pyCmpKey k₁ k₂).isSome = true := by
  intro k₁
  induction k₁ with
  | nil => intro b k₂ _ _; cases k₂ <;> rfl
  | cons e₁ as ih =>
    intro b k₂ h₁ h₂
    cases k₂ with
    | nil => rfl
    | cons e₂ bs =>
      cases b with
      | true =>
        obtain ⟨⟨t₁, he₁⟩, h₁'⟩ := h₁
        obtain ⟨⟨t₂, he₂⟩, h₂'⟩ := h₂
        subst he₁
        subst he₂
        rw [pyCmpKey_cons]
        rw [show pyCmpElem (Sum.inl t₁) (Sum.inl t₂) = some (cmpCharList t₁ t₂) from rfl]
        cases cmpCharList t₁ t₂ with
        | lt => rfl
        | eq => exact ih false bs h₁' h₂'
        | gt => rfl
      | false =>
        obtain ⟨⟨n₁, he₁⟩, h₁'⟩ := h₁
        obtain ⟨⟨n₂, he₂⟩, h₂'⟩ := h₂
        subst he₁
        subst he₂
        rw [pyCmpKey_cons]
        rw [show pyCmpElem (Sum.inr n₁) (Sum.inr n₂) = some (compare n₁ n₂) from rfl]
        cases compare n₁ n₂ with
        | lt => rfl
        | eq => exact ih true bs h₁' h₂'
        | gt => rfl

theorem natKey_comparable (a b : Filename) :
    (pyCmpKey (natural_key a) (natural_key b)).isSome = true :=
  pyCmpKey_isSome_of_alt (natural_key a) true (natural_key b)
    (keyAlt_natural_key a) (keyAlt_natural_key b)

theorem nat_compare_swap (m n : Nat) : compare n m = (compare m n).swap := by
  rcases Nat.lt_trichotomy m n with h | h | h
  · rw [Nat.compare_eq_lt.mpr h, Nat.compare_eq_gt.mpr h]
    rfl
  · rw [Nat.compare_eq_eq.mpr h, Nat.compare_eq_eq.mpr h.symm]
    rfl
  · rw [Nat.compare_eq_gt.mpr h, Nat.compare_eq_lt.mpr h]
    rfl

theorem cmpChar_swap (a b : Char) : cmpChar b a = (cmpChar a b).swap := by
  rw [cmpChar, cmpChar]
  exact nat_compare_swap a.toNat b.toNat

theorem cmpCharList_swap : ∀ a b : List Char, cmpCharList b a = (cmpCharList a b).swap := by
  intro a
  induction a with
  | nil => intro b; cases b <;> rfl
  | cons x xs ih =>
    intro b
    cases b with
    | nil => rfl
    | cons y ys =>
      rw [cmpCharList_cons, cmpCharList_cons]
      rw [cmpChar_swap x y]
      cases cmpChar x y with
      | lt => rfl
      | eq => exact ih ys
      | gt => rfl

theorem pyCmpElem_swap (e₁ e₂ : KeyElem) :
    pyCmpElem e₂ e₁ = (pyCmpElem e₁ e₂).map Ordering.swap := by
  cases e₁ with
  | inl t₁ =>
    cases e₂ with
    | inl t₂ =>
      rw [show pyCmpElem (Sum.inl t₂) (Sum.inl t₁) = some (cmpCharList t₂ t₁) from rfl]
      rw [show pyCmpElem (Sum.inl t₁) (Sum.inl t₂) = some (cmpCharList t₁ t₂) from rfl]
      rw [cmpCharList_swap t₁ t₂]
      rfl
    | inr n₂ => rfl
  | inr n₁ =>
    cases e₂ with
    | inl t₂ => rfl
    | inr n₂ =>
      rw [show pyCmpElem (Sum.inr n₂) (Sum.inr n₁) = some (compare n₂ n₁) from rfl]
      rw [show pyCmpElem (Sum.inr n₁) (Sum.inr n₂) = some (compare n₁ n₂) from rfl]
      rw [nat_compare_swap n₁ n₂]
      rfl

theorem pyCmpKey_swap : ∀ k₁ k₂ : List KeyElem,
    pyCmpKey k₂ k₁ = (pyCmpKey k₁ k₂).map Ordering.swap := by
  intro k₁
  induction k₁ with
  | nil => intro k₂; cases k₂ <;> rfl
  | cons e₁ as ih =>
    intro k₂
    cases k₂ with
    | nil => rfl
    | cons e₂ bs =>
      rw [pyCmpKey_cons, pyCmpKey_cons]
      rw [pyCmpElem_swap e₁ e₂]
      cases h : pyCmpElem e₁ e₂ with
      | none => rfl
      | some o =>
        cases o with
        | lt => rfl
        | eq => exact ih bs
        | gt => rfl

/-! ### Natural-sort order: congruence, transitivity, totality -/

theorem cmpChar_eq_iff (a b : Char) : cmpChar a b = .eq ↔ a.toNat = b.toNat :=
  Nat.compare_eq_eq

theorem cmpCharList_eq_congr : ∀ a b : List Char, cmpCharList a b = .eq →
    ∀ c : List Char, cmpCharList a c = cmpCharList b c := by
  intro a
  induction a with
  | nil =>
    intro b hb c
    cases b with
    | nil => rfl
    | cons y ys => exact absurd hb (by rw [show cmpCharList [] (y :: ys) = .lt from rfl]; simp)
  | cons x xs ih =>
    intro b hb c
    cases b with
    | nil => exact absurd hb (by rw [show cmpCharList (x :: xs) [] = .gt from rfl]; simp)
    | cons y ys =>
      rw [cmpCharList_cons] at hb
      cases hxy : cmpChar x y with
      | lt => rw [hxy] at hb; simp at hb
      | gt => rw [hxy] at hb; simp at hb
      | eq =>
        rw [hxy] at hb
        cases c with
        | nil => rfl
        | cons z zs =>
          rw [cmpCharList_cons, cmpCharList_cons]
          have hxz : cmpChar x z = cmpChar y z := by
            rw [cmpChar, cmpChar, (cmpChar_eq_iff x y).mp hxy]
          rw [hxz]
          cases cmpChar y z with
          | lt => rfl
          | gt => rfl
          | eq => exact ih ys hb zs

theorem cmpChar_lt_trans {x y z : Char} (h₁ : cmpChar x y = .lt) (h₂ : cmpChar y z = .lt) :
    cmpChar x z = .lt := by
  rw [cmpChar] at h₁ h₂ ⊢
  rw [Nat.compare_eq_lt] at h₁ h₂ ⊢
  omega

theorem cmpCharList_lt_trans : ∀ a b c : List Char, cmpCharList a b = .lt →
    cmpCharList b c = .lt → cmpCharList a c = .lt := by
  intro a
  induction a with
  | nil =>
    intro b c hab hbc
    cases b with
    | nil => exact absurd hab (by rw [show cmpCharList [] [] = .eq from rfl]; simp)
    | cons y ys =>
      cases c with
      | nil => exact absurd hbc (by rw [show cmpCharList (y :: ys) [] = .gt from rfl]; simp)
      | cons z zs => rfl
  | cons x xs ih =>
    intro b c hab hbc
    cases b with
    | nil => exact absurd hab (by rw [show cmpCharList (x :: xs) [] = .gt from rfl]; simp)
    | cons y ys =>
      cases c with
      | nil => exact absurd hbc (by rw [show cmpCharList (y :: ys) [] = .gt from rfl]; simp)
      | cons z zs =>
        rw [cmpCharList_cons] at hab hbc ⊢
        cases hxy : cmpChar x y with
        | gt => rw [hxy] at hab; simp at hab
        | lt =>
          cases hyz : cmpChar y z with
          | gt => rw [hyz] at hbc; simp at hbc
          | lt => rw [cmpChar_lt_trans hxy hyz]
          | eq =>
            have hxz : cmpChar x z = .lt := by
              rw [cmpChar, ← (cmpChar_eq_iff y z).mp hyz, ← cmpChar]
              exact hxy
            rw [hxz]
        | eq =>
          rw [hxy] at hab
          cases hyz : cmpChar y z with
          | gt => rw [hyz] at hbc; simp at hbc
          | lt =>
            have hxz : cmpChar x z = .lt := by
              rw [cmpChar, (cmpChar_eq_iff x y).mp hxy, ← cmpChar]
              exact hyz
            rw [hxz]
          | eq =>
            rw [hyz] at hbc
            have hxz : cmpChar x z = .eq :=
              (cmpChar_eq_iff x z).mpr (((cmpChar_eq_iff x y).mp hxy).trans
                ((cmpChar_eq_iff y z).mp hyz))
            rw [hxz]
            exact ih ys zs hab hbc

theorem pyCmpElem_eq_congr {e₁ e₂ : KeyElem} (h : pyCmpElem e₁ e₂ = some .eq)
    (e₃ : KeyElem) : pyCmpElem e₁ e₃ = pyCmpElem e₂ e₃ := by
  cases e₁ with
  | inl t₁ =>
    cases e₂ with
    | inl t₂ =>
      have hcl : cmpCharList t₁ t₂ = .eq := by
        rw [show pyCmpElem (Sum.inl t₁) (Sum.inl t₂) = some (cmpCharList t₁ t₂) from rfl] at h
        injection h
      cases e₃ with
      | inl t₃ =>
        rw [show pyCmpElem (Sum.inl t₁) (Sum.inl t₃) = some (cmpCharList t₁ t₃) from rfl]
        rw [show pyCmpElem (Sum.inl t₂) (Sum.inl t₃) = some (cmpCharList t₂ t₃) from rfl]
        rw [cmpCharList_eq_congr t₁ t₂ hcl t₃]
      | inr n₃ => rfl
    | inr n₂ => exact absurd h (by rw [show pyCmpElem (Sum.inl t₁) (Sum.inr n₂) = none from rfl]; simp)
  | inr n₁ =>
    cases e₂ with
    | inl t₂ => exact absurd h (by rw [show pyCmpElem (Sum.inr n₁) (Sum.inl t₂) = none from rfl]; simp)
    | inr n₂ =>
      have hn : n₁ = n₂ := by
        rw [show pyCmpElem (Sum.inr n₁) (Sum.inr n₂) = some (compare n₁ n₂) from rfl] at h
        have : compare n₁ n₂ = .eq := by injection h
        exact Nat.compare_eq_eq.mp this
      rw [hn]

theorem pyCmpElem_eq_congr_right {e₂ e₃ : KeyElem} (h : pyCmpElem e₂ e₃ = some .eq)
    (e₁ : KeyElem) : pyCmpElem e₁ e₂ = pyCmpElem e₁ e₃ := by
  rw [pyCmpElem_swap e₂ e₁, pyCmpElem_swap e₃ e₁, pyCmpElem_eq_congr h e₁]

theorem pyCmpElem_lt_trans {e₁ e₂ e₃ : KeyElem} (h₁₂ : pyCmpElem e₁ e₂ = some .lt)
    (h₂₃ : pyCmpElem e₂ e₃ = some .lt) : pyCmpElem e₁ e₃ = some .lt := by
  cases e₁ with
  | inl t₁ =>
    cases e₂ with
    | inl t₂ =>
      cases e₃ with
      | inl t₃ =>
        have hc₁ : cmpCharList t₁ t₂ = .lt := by
          rw [show pyCmpElem (Sum.inl t₁) (Sum.inl t₂) = some (cmpCharList t₁ t₂) from rfl] at h₁₂
          injection h₁₂
        have hc₂ : cmpCharList t₂ t₃ = .lt := by
          rw [show pyCmpElem (Sum.inl t₂) (Sum.inl t₃) = some (cmpCharList t₂ t₃) from rfl] at h₂₃
          injection h₂₃
        rw [show pyCmpElem (Sum.inl t₁) (Sum.inl t₃) = some (cmpCharList t₁ t₃) from rfl]
        rw [cmpCharList_lt_trans t₁ t₂ t₃ hc₁ hc₂]
      | inr n₃ =>
        exact absurd h₂₃ (by rw [show pyCmpElem (Sum.inl t₂) (Sum.inr n₃) = none from rfl]; simp)
    | inr n₂ =>
      exact absurd h₁₂ (by rw [show pyCmpElem (Sum.inl t₁) (Sum.inr n₂) = none from rfl]; simp)
  | inr n₁ =>
    cases e₂ with
    | inl t₂ =>
      exact absurd h₁₂ (by rw [show pyCmpElem (Sum.inr n₁) (Sum.inl t₂) = none from rfl]; simp)
    | inr n₂ =>
      cases e₃ with
      | inl t₃ =>
        exact absurd h₂₃ (by rw [show pyCmpElem (Sum.inr n₂) (Sum.inl t₃) = none from rfl]; simp)
      | inr n₃ =>
        have hc₁ : n₁ < n₂ := by
          rw [show pyCmpElem (Sum.inr n₁) (Sum.inr n₂) = some (compare n₁ n₂) from rfl] at h₁₂
          have : compare n₁ n₂ = .lt := by injection h₁₂
          exact Nat.compare_eq_lt.mp this
        have hc₂ : n₂ < n₃ := by
          rw [show pyCmpElem (Sum.inr n₂) (Sum.inr n₃) = some (compare n₂ n₃) from rfl] at h₂₃
          have : compare n₂ n₃ = .lt := by injection h₂₃
          exact Nat.compare_eq_lt.mp this
        rw [show pyCmpElem (Sum.inr n₁) (Sum.inr n₃) = some (compare n₁ n₃) from rfl]
        rw [Nat.compare_eq_lt.mpr (hc₁.trans hc₂)]

theorem pyCmpKey_le_trans : ∀ k₁ k₂ k₃ : List KeyElem,
    (pyCmpKey k₁ k₂ = some .lt ∨ pyCmpKey k₁ k₂ = some .eq) →
    (pyCmpKey k₂ k₃ = some .lt ∨ pyCmpKey k₂ k₃ = some .eq) →
    (pyCmpKey k₁ k₃ = some .lt ∨ pyCmpKey k₁ k₃ = some .eq) := by
  intro k₁
  induction k₁ with
  | nil =>
    intro k₂ k₃ _ _
    cases k₃ with
    | nil => exact Or.inr rfl
    | cons e₃ cs => exact Or.inl rfl
  | cons e₁ as ih =>
    intro k₂ k₃ h₁₂ h₂₃
    cases k₂ with
    | nil =>
      exfalso
      have hgt : pyCmpKey (e₁ :: as) [] = some .gt := rfl
      rcases h₁₂ with h | h <;> rw [hgt] at h <;> simp at h
    | cons e₂ bs =>
      cases k₃ with
      | nil =>
        exfalso
        have hgt : pyCmpKey (e₂ :: bs) [] = some .gt := rfl
        rcases h₂₃ with h | h <;> rw [hgt] at h <;> simp at h
      | cons e₃ cs =>
        cases h12 : pyCmpElem e₁ e₂ with
        | none =>
          exfalso
          rcases h₁₂ with h | h <;> rw [pyCmpKey_cons, h12] at h <;> simp at h
        | some o₁₂ =>
          cases h23 : pyCmpElem e₂ e₃ with
          | none =>
            exfalso
            rcases h₂₃ with h | h <;> rw [pyCmpKey_cons, h23] at h <;> simp at h
          | some o₂₃ =>
            cases o₁₂ with
            | gt =>
              exfalso
              rcases h₁₂ with h | h <;> rw [pyCmpKey_cons, h12] at h <;> simp at h
            | lt =>
              cases o₂₃ with
              | gt =>
                exfalso
                rcases h₂₃ with h | h <;> rw [pyCmpKey_cons, h23] at h <;> simp at h
              | lt =>
                left
                rw [pyCmpKey_cons, pyCmpElem_lt_trans h12 h23]
              | eq =>
                left
                have hc := pyCmpElem_eq_congr_right h23 e₁
                rw [pyCmpKey_cons, ← hc, h12]
            | eq =>
              cases o₂₃ with
              | gt =>
                exfalso
                rcases h₂₃ with h | h <;> rw [pyCmpKey_cons, h23] at h <;> simp at h
              | lt =>
                left
                have hc := pyCmpElem_eq_congr h12 e₃
                rw [pyCmpKey_cons, hc, h23]
              | eq =>
                have h₁₂' : pyCmpKey as bs = some .lt ∨ pyCmpKey as bs = some .eq := by
                  rcases h₁₂ with h | h
                  · rw [pyCmpKey_cons, h12] at h
                    exact Or.inl h
                  · rw [pyCmpKey_cons, h12] at h
                    exact Or.inr h
                have h₂₃' : pyCmpKey bs cs = some .lt ∨ pyCmpKey bs cs = some .eq := by
                  rcases h₂₃ with h | h
                  · rw [pyCmpKey_cons, h23] at h
                    exact Or.inl h
                  · rw [pyCmpKey_cons, h23] at h
                    exact Or.inr h
                have hres := ih bs cs h₁₂' h₂₃'
                have hc := pyCmpElem_eq_congr h12 e₃
                rw [pyCmpKey_cons, hc, h23]
                rcases hres with h | h
                · exact Or.inl h
                · exact Or.inr h

theorem natLe_iff (a b : Filename) :
    natLe a b ↔ (pyCmpKey (natural_key a) (natural_key b) = some .lt ∨
      pyCmpKey (natural_key a) (natural_key b) = some .eq) := by
  obtain ⟨o, ho⟩ := Option.isSome_iff_exists.mp (natKey_comparable a b)
  rw [natLe, ho]
  cases o with
  | lt => simp
  | eq => simp
  | gt => simp

theorem natLe_trans {a b c : Filename} (h₁ : natLe a b) (h₂ : natLe b c) : natLe a c := by
  rw [natLe_iff] at h₁ h₂ ⊢
  exact pyCmpKey_le_trans (natural_key a) (natural_key b) (natural_key c) h₁ h₂

theorem natLe_total (a b : Filename) : natLe a b ∨ natLe b a := by
  obtain ⟨o, ho⟩ := Option.isSome_iff_exists.mp (natKey_comparable a b)
  cases o with
  | lt => exact Or.inl (by rw [natLe, ho]; simp)
  | eq => exact Or.inl (by rw [natLe, ho]; simp)
  | gt =>
    right
    rw [natLe, pyCmpKey_swap, ho]
    simp [Ordering.swap]

/-! ### Missing indices -/

theorem missing_indices_mem (d : List (Nat × Filename)) (minI maxI : Nat)
    (hle : minI ≤ maxI) (k : Nat) :
    k ∈ missing_indices d minI maxI ↔
      minI ≤ k ∧ k ≤ maxI ∧ k ∉ d.map Prod.fst := by
  rw [missing_indices, List.mem_filter, List.mem_range'_1]
  rw [show minI + (maxI + 1 - minI) = maxI + 1 from by omega]
  constructor
  · rintro ⟨⟨h1, h2⟩, h3⟩
    refine ⟨h1, by omega, ?_⟩
    rw [mem_keys_iff_hasKey]
    simp only [Bool.not_eq_true'] at h3
    simp [h3]
  · rintro ⟨h1, h2, h3⟩
    refine ⟨⟨h1, by omega⟩, ?_⟩
    rw [mem_keys_iff_hasKey] at h3
    simp only [Bool.not_eq_true']
    exact Bool.not_eq_true _ ▸ (by simpa using h3)

theorem missing_indices_sorted (d : List (Nat × Filename)) (minI maxI : Nat) :
    (missing_indices d minI maxI).Pairwise (· < ·) := by
  rw [missing_indices]
  exact (List.pairwise_lt_range' minI (maxI + 1 - minI) 1).filter _

/-- C1: with minIndex the minimum key and maxIndex the maximum key of the
index-to-filename mapping, the missing-indices computation returns exactly
the integers of the inclusive range that are not keys, strictly ascending;
for key set 0,4 it gives 1,2,3 and for key set 0,1,2 it gives nothing. -/
theorem claim_C1 :
    (∀ (d : List (Nat × Filename)) (minI maxI : Nat),
      minI ∈ d.map Prod.fst → maxI ∈ d.map Prod.fst →
      (∀ k ∈ d.map Prod.fst, minI ≤ k ∧ k ≤ maxI) →
      ((∀ k, k ∈ missing_indices d minI maxI ↔
          minI ≤ k ∧ k ≤ maxI ∧ k ∉ d.map Prod.fst) ∧
        (missing_indices d minI maxI).Pairwise (· < ·))) ∧
    missing_indices [(0, ['a']), (4, ['b'])] 0 4 = [1, 2, 3] ∧
    missing_indices [(0, ['a']), (1, ['b']), (2, ['c'])] 0 2 = [] := by
  refine ⟨?_, by decide, by decide⟩
  intro d minI maxI hminMem hmaxMem hbounds
  have hle : minI ≤ maxI := (hbounds maxI hmaxMem).1
  exact ⟨missing_indices_mem d minI maxI hle, missing_indices_sorted d minI maxI⟩

theorem claim_C1_witness :
    ((0 : Nat) ∈ [(0, (['a'] : Filename)), (4, ['b'])].map Prod.fst) ∧
    ((2 ∈ missing_indices [(0, (['a'] : Filename)), (4, ['b'])] 0 4 ↔
      0 ≤ 2 ∧ 2 ≤ 4 ∧ 2 ∉ [(0, (['a'] : Filename)), (4, ['b'])].map Prod.fst) ∧
      (missing_indices [(0, (['a'] : Filename)), (4, ['b'])] 0 4).Pairwise (· < ·)) := by
  have h := claim_C1.1 [(0, ['a']), (4, ['b'])] 0 4 (by decide) (by decide) (by decide)
  exact ⟨by decide, h.1 2, h.2⟩

/-- C3: parse_last_number returns the value of the last digit run (the run
is all digits, nothing after it is a digit, and the character before it, if
any, is not a digit), such a decomposition exists whenever the filename has
a digit, and the result is none exactly when it has no digit. -/
theorem claim_C3 :
    (∀ s : List Char,
      ((∀ c ∈ s, c.isDigit = false) → parse_last_number s = none) ∧
      (∀ u r v : List Char, r ≠ [] → r.all Char.isDigit = true →
        (∀ c ∈ v, c.isDigit = false) → (∀ c, u.getLast? = some c → c.isDigit = false) →
        s = u ++ r ++ v → parse_last_number s = some (digitsToNat r)) ∧
      ((∃ c ∈ s, c.isDigit = true) → ∃ u r v, s = u ++ r ++ v ∧ r ≠ [] ∧
        r.all Char.isDigit = true ∧ (∀ c ∈ v, c.isDigit = false) ∧
        (∀ c, u.getLast? = some c → c.isDigit = false))) ∧
    parse_last_number "camping_04_12.png".toList = some 12 ∧
    parse_last_number "tenda10.jpg".toList = some 10 ∧
    parse_last_number "noNumbers.png".toList = none := by
  refine ⟨?_, by decide, by decide, by decide⟩
  intro s
  refine ⟨fun h => (plm_none_iff s).mpr h, ?_, ?_⟩
  · intro u r v hrne hrdig hv hu hs
    subst hs
    rw [plm_append_nodigit hv, plm_append_run hrdig hrne,
      show trailingRun u = [] from trailing_eq_nil_of_clean hu]
    rfl
  · intro hdig
    obtain ⟨q₁, hq₁, hlast₁⟩ := trailing_decomp (fun c => !c.isDigit) s
    have hvnd : ∀ c ∈ trailingWhile (fun c => !c.isDigit) s, c.isDigit = false := by
      intro c hc
      have := List.all_eq_true.mp (trailingWhile_sat (fun c => !c.isDigit) s) c hc
      simpa using this
    have hq₁ne : q₁ ≠ [] := by
      intro h0
      subst h0
      obtain ⟨c, hcmem, hcdig⟩ := hdig
      rw [hq₁, List.nil_append] at hcmem
      rw [hvnd c hcmem] at hcdig
      exact Bool.false_ne_true hcdig
    obtain ⟨u, hu, hulast⟩ := trailing_decomp Char.isDigit q₁
    have hu' : q₁ = u ++ trailingRun q₁ := hu
    have hlastq₁ : ∀ c, q₁.getLast? = some c → c.isDigit = true := by
      intro c hc
      have := hlast₁ c hc
      simpa using this
    have hrne : trailingRun q₁ ≠ [] := by
      intro h0
      rw [h0, List.append_nil] at hu'
      obtain ⟨x, hx⟩ := Option.isSome_iff_exists.mp (List.getLast?_isSome.mpr hq₁ne)
      have hxd := hlastq₁ x hx
      rw [hu'] at hx
      rw [hulast x hx] at hxd
      exact Bool.false_ne_true hxd
    refine ⟨u, trailingRun q₁, trailingWhile (fun c => !c.isDigit) s, ?_, hrne, ?_, hvnd, hulast⟩
    · conv_lhs => rw [hq₁, hu']
    · exact trailingWhile_sat Char.isDigit q₁

theorem claim_C3_witness :
    ("tenda".toList ++ ['1', '0'] ++ ".jpg".toList = "tenda10.jpg".toList) ∧
    parse_last_number ("tenda".toList ++ ['1', '0'] ++ ".jpg".toList) =
      some (digitsToNat ['1', '0']) := by
  refine ⟨by decide, ?_⟩
  exact (claim_C3.1 ("tenda".toList ++ ['1', '0'] ++ ".jpg".toList)).2.1 "tenda".toList
    ['1', '0'] ".jpg".toList (by decide) (by decide) (by decide) (by decide) rfl

/-- C4: parse_prefix strips the extension; when the base name ends with the
decimal representation of the index it removes exactly that suffix, and
otherwise it returns the base name unchanged; on camping_04_12.png with
index 12 it yields camping_04_. -/
theorem claim_C4 :
    (∀ (f : List Char) (n : Nat),
      ((natToStr n).isSuffixOf (splitext f).1 = true →
        parsePrefix f n ++ natToStr n = (splitext f).1) ∧
      ((natToStr n).isSuffixOf (splitext f).1 = false →
        parsePrefix f n = (splitext f).1)) ∧
    parsePrefix "camping_04_12.png".toList 12 = "camping_04_".toList := by
  refine ⟨?_, by decide⟩
  intro f n
  constructor
  · intro hsuf
    obtain ⟨pre, hpre⟩ := List.isSuffixOf_iff_suffix.mp hsuf
    have htake : (splitext f).1.take ((splitext f).1.length - (natToStr n).length) = pre := by
      rw [← hpre, List.length_append]
      rw [show pre.length + (natToStr n).length - (natToStr n).length = pre.length from by
        omega]
      exact List.take_left pre (natToStr n)
    rw [parsePrefix_def, if_pos hsuf, htake, hpre]
  · intro hsuf
    rw [parsePrefix_def, if_neg (by simp [hsuf])]

theorem claim_C4_witness :
    ((natToStr 12).isSuffixOf (splitext "camping_04_12.png".toList).1 = true) ∧
    parsePrefix "camping_04_12.png".toList 12 ++ natToStr 12 =
      (splitext "camping_04_12.png".toList).1 :=
  ⟨by decide, (claim_C4.1 "camping_04_12.png".toList 12).1 (by decide)⟩

/-- C8: the natural-sort key of any filename alternates text elements at
even positions and integer elements at odd positions, so the Python list
comparison of two keys never reaches a mixed-type pair: it is always
defined, and any two filenames are comparable in the sort order. -/
theorem claim_C8 :
    ∀ a b : List Char,
      KeyAlt true (natural_key a) ∧
      (pyCmpKey (natural_key a) (natural_key b)).isSome = true ∧
      (natLe a b ∨ natLe b a) := by
  intro a b
  exact ⟨keyAlt_natural_key a, natKey_comparable a b, natLe_total a b⟩

/-! ### Pipeline unfoldings -/

theorem create_tilesheet_def (files : List Filename) (folder : Filename → Image)
    (fill_missing : Bool) (maxC tw th : Nat) (rp : ResizeFn) :
    create_tilesheet files folder fill_missing maxC tw th rp =
      if (files.filter hasImageExt).isEmpty then none
      else
        match
          (if fill_missing then expandedGapFill (sortedFiles files)
            else some ((sortedFiles files).map some)) with
        | none => none
        | some efs => some (composeGrid (efs.map (fun o => o.map folder)) maxC tw th rp) := rfl

theorem expandedGapFill_def (fs : List Filename) :
    expandedGapFill fs =
      match validIndices fs with
      | [] => none
      | v :: vs =>
        some ((List.range' (vs.foldl min v) (vs.foldl max v + 1 - vs.foldl min v)).map
          (fun i => dictLookup (buildIndexMap fs) i)) := rfl

theorem generate_missing_images_def (files : List Filename) :
    generate_missing_images files =
      if (files.filter hasImageExt).isEmpty then []
      else
        if (buildIndexMap (files.filter hasImageExt)).isEmpty then []
        else
          match (buildIndexMap (files.filter hasImageExt)).map Prod.fst with
          | [] => []
          | k :: ks =>
            match dictLookup (buildIndexMap (files.filter hasImageExt)) (ks.foldl min k) with
            | none => []
            | some example_file =>
              (missing_indices (buildIndexMap (files.filter hasImageExt)) (ks.foldl min k)
                  (ks.foldl max k)).map
                (fun idx => parsePrefix example_file (ks.foldl min k) ++ natToStr idx ++
                  lowerStr (splitext example_file).2) := rfl

theorem validIndices_eq_nil_iff (fs : List Filename) :
    validIndices fs = [] ↔ ∀ f ∈ fs, parse_last_number f = none := by
  rw [validIndices]
  exact List.filterMap_eq_nil_iff

theorem mem_sortedFiles (files : List Filename) (f : Filename) :
    f ∈ sortedFiles files ↔ f ∈ files ∧ hasImageExt f = true := by
  rw [sortedFiles, List.mem_insertionSort, List.mem_filter]

/-- C7: the composer returns without creating a canvas exactly when either
no file passes the image-extension filter, or gap-fill is requested and no
discovered file has a parseable last number. -/
theorem claim_C7 :
    ∀ (files : List Filename) (folder : Filename → Image) (fill : Bool)
      (maxC tw th : Nat) (rp : ResizeFn),
      create_tilesheet files folder fill maxC tw th rp = none ↔
        (files.filter hasImageExt = [] ∨
          (fill = true ∧ ∀ f ∈ files.filter hasImageExt, parse_last_number f = none)) := by
  intro files folder fill maxC tw th rp
  rw [create_tilesheet_def]
  by_cases hemp : (files.filter hasImageExt).isEmpty
  · rw [if_pos hemp]
    simp only [true_iff]
    exact Or.inl (List.isEmpty_iff.mp hemp)
  · rw [if_neg hemp]
    have hne : files.filter hasImageExt ≠ [] := fun h => hemp (List.isEmpty_iff.mpr h)
    cases fill with
    | false =>
      simp only [if_neg (Bool.false_ne_true)]
      constructor
      · intro h
        simp at h
      · rintro (h | ⟨h, _⟩)
        · exact absurd h hne
        · exact absurd h (by simp)
    | true =>
      rw [if_pos rfl]
      rw [expandedGapFill_def]
      cases hv : validIndices (sortedFiles files) with
      | nil =>
        constructor
        · intro _
          right
          refine ⟨rfl, ?_⟩
          intro f hf
          exact (validIndices_eq_nil_iff (sortedFiles files)).mp hv f
            ((mem_sortedFiles files f).mpr (List.mem_filter.mp hf))
        · intro _
          rfl
      | cons v vs =>
        simp only
        constructor
        · intro h
          simp at h
        · rintro (h | ⟨_, h⟩)
          · exact absurd h hne
          · exfalso
            have : validIndices (sortedFiles files) = [] := by
              rw [validIndices_eq_nil_iff]
              intro f hf
              have hf' := (mem_sortedFiles files f).mp hf
              exact h f (List.mem_filter.mpr ⟨hf'.1, hf'.2⟩)
            rw [hv] at this
            exact absurd this (by simp)

/-- C6: without gap-fill the composer's slot sequence is exactly the list
of discovered image files in natural-sort order: a permutation of the
filtered listing, sorted under the key order, with files lacking any digit
run included; the key orders tile_2.png before tile_10.png. -/
theorem claim_C6 :
    (∀ (files : List Filename) (folder : Filename → Image) (maxC tw th : Nat) (rp : ResizeFn),
      files.filter hasImageExt ≠ [] →
      create_tilesheet files folder false maxC tw th rp =
        some (composeGrid ((sortedFiles files).map (fun f => some (folder f)))
          maxC tw th rp)) ∧
    (∀ files : List Filename, (sortedFiles files).Perm (files.filter hasImageExt)) ∧
    (∀ files : List Filename, (sortedFiles files).Sorted natLe) ∧
    (∀ (files : List Filename) (f : Filename),
      f ∈ sortedFiles files ↔ f ∈ files ∧ hasImageExt f = true) ∧
    sortedFiles ["tile_10.png".toList, "tile_2.png".toList] =
      ["tile_2.png".toList, "tile_10.png".toList] ∧
    natLt "tile_2.png".toList "tile_10.png".toList := by
  refine ⟨?_, ?_, ?_, mem_sortedFiles, by decide, by decide⟩
  · intro files folder maxC tw th rp hne
    rw [create_tilesheet_def, if_neg (fun h => hne (List.isEmpty_iff.mp h))]
    rw [if_neg Bool.false_ne_true]
    simp only [Option.some.injEq]
    congr 1
    rw [List.map_map]
    rfl
  · intro files
    exact List.perm_insertionSort natLe (files.filter hasImageExt)
  · intro files
    letI : IsTotal Filename natLe := ⟨natLe_total⟩
    letI : IsTrans Filename natLe := ⟨fun a b c => natLe_trans⟩
    exact List.sorted_insertionSort natLe (files.filter hasImageExt)

theorem claim_C6_witness :
    (["tile_10.png".toList, "tile_2.png".toList].filter hasImageExt ≠ []) ∧
    create_tilesheet ["tile_10.png".toList, "tile_2.png".toList]
        (fun _ => Image.blank 128 256) false 8 128 256 (fun _ _ _ _ => transparentPx) =
      some (composeGrid ((sortedFiles ["tile_10.png".toList, "tile_2.png".toList]).map
        (fun f => some ((fun _ : Filename => Image.blank 128 256) f)))
        8 128 256 (fun _ _ _ _ => transparentPx)) :=
  ⟨by decide, claim_C6.1 ["tile_10.png".toList, "tile_2.png".toList]
    (fun _ => Image.blank 128 256) 8 128 256 (fun _ _ _ _ => transparentPx) (by decide)⟩

/-- C9: when several files share the same parsed index, the dictionary
keeps only the file inserted last, which over the sorted listing is the
latest file in natural-sort order; each grid slot of the gap-fill sequence
is the dictionary entry of one distinct index, so at most one tile per
index appears. -/
theorem claim_C9 :
    ∀ (files : List Filename) (v : Nat) (vs : List Nat),
      validIndices (sortedFiles files) = v :: vs →
      (∀ i : Nat, dictLookup (buildIndexMap (sortedFiles files)) i =
        ((sortedFiles files).filter
          (fun f => decide (parse_last_number f = some i))).getLast?) ∧
      expandedGapFill (sortedFiles files) =
        some ((List.range' (vs.foldl min v) (vs.foldl max v + 1 - vs.foldl min v)).map
          (fun i => dictLookup (buildIndexMap (sortedFiles files)) i)) ∧
      (List.range' (vs.foldl min v) (vs.foldl max v + 1 - vs.foldl min v)).Pairwise (· ≠ ·) := by
  intro files v vs hvalid
  refine ⟨fun i => dictLookup_buildIndexMap (sortedFiles files) i, ?_, ?_⟩
  · rw [expandedGapFill_def, hvalid]
  · exact ((List.pairwise_lt_range' _ _ 1).imp (fun h => Nat.ne_of_lt h))

theorem claim_C9_witness :
    (validIndices (sortedFiles ["a_1.png".toList, "b_1.png".toList]) = [1, 1]) ∧
    (dictLookup (buildIndexMap (sortedFiles ["a_1.png".toList, "b_1.png".toList])) 1 =
      ((sortedFiles ["a_1.png".toList, "b_1.png".toList]).filter
        (fun f => decide (parse_last_number f = some 1))).getLast?) ∧
    (dictLookup (buildIndexMap (sortedFiles ["a_1.png".toList, "b_1.png".toList])) 1 =
      some "b_1.png".toList) ∧
    expandedGapFill (sortedFiles ["a_1.png".toList, "b_1.png".toList]) =
      some [some "b_1.png".toList] := by
  have h := claim_C9 ["a_1.png".toList, "b_1.png".toList] 1 [1] (by decide)
  exact ⟨by decide, h.1 1, by decide, by decide⟩

/-! ### Ceil bound for grid rows -/

theorem gridColumns_pos {n maxC : Nat} (hn : 1 ≤ n) (hc : 1 ≤ maxC) :
    0 < gridColumns n maxC := by
  rw [gridColumns]
  exact Nat.lt_min.mpr ⟨hn, hc⟩

theorem gridRows_ceil (n maxC : Nat) (hn : 1 ≤ n) (hc : 1 ≤ maxC) :
    1 ≤ gridRows n maxC ∧
    n ≤ gridColumns n maxC * gridRows n maxC ∧
    gridColumns n maxC * (gridRows n maxC - 1) < n := by
  have hcpos : 0 < gridColumns n maxC := gridColumns_pos hn hc
  have hcle : gridColumns n maxC ≤ n := by
    rw [gridColumns]
    exact Nat.min_le_left n maxC
  rw [gridRows]
  have hdm := Nat.div_add_mod (n + gridColumns n maxC - 1) (gridColumns n maxC)
  have hmlt : (n + gridColumns n maxC - 1) % gridColumns n maxC < gridColumns n maxC :=
    Nat.mod_lt _ hcpos
  cases hr : (n + gridColumns n maxC - 1) / gridColumns n maxC with
  | zero =>
    exfalso
    rw [hr, Nat.mul_zero, Nat.zero_add] at hdm
    omega
  | succ r' =>
    rw [hr] at hdm
    rw [Nat.mul_succ] at hdm
    refine ⟨by omega, ?_, ?_⟩
    · rw [Nat.mul_succ]
      omega
    · rw [show r' + 1 - 1 = r' from by omega]
      omega

/-- C2: the grid composer uses columns equal to the minimum of the slot
count and the column cap, a row count that is the ceiling of count over
columns, a canvas of exactly columns*tileWidth by rows*tileHeight pixels,
and places slot i at pixel origin ((i mod columns)*tileWidth,
(i div columns)*tileHeight); 10 slots with cap 8 give an 8 by 2 grid with
slot 8 in row 1, column 0; and the gap-fill run over a_0.png and a_3.png
(both 128 by 256) with cap 8 yields a 512 by 256 canvas whose cells 0 and 3
show the two source images and whose cells 1 and 2 are fully transparent. -/
theorem claim_C2 :
    (∀ (slots : List (Option Image)) (maxC tw th : Nat) (rp : ResizeFn),
      1 ≤ slots.length → 1 ≤ maxC →
      gridColumns slots.length maxC = min slots.length maxC ∧
      (1 ≤ gridRows slots.length maxC ∧
        slots.length ≤ gridColumns slots.length maxC * gridRows slots.length maxC ∧
        gridColumns slots.length maxC * (gridRows slots.length maxC - 1) < slots.length) ∧
      (composeGrid slots maxC tw th rp).width = gridColumns slots.length maxC * tw ∧
      (composeGrid slots maxC tw th rp).height = gridRows slots.length maxC * th ∧
      (∀ (k dx dy : Nat) (hk : k < slots.length), dx < tw → dy < th →
        (composeGrid slots maxC tw th rp).pixel
            (k % gridColumns slots.length maxC * tw + dx,
              k / gridColumns slots.length maxC * th + dy) =
          (slotImage tw th rp (slots.get ⟨k, hk⟩)).pixel (dx, dy))) ∧
    (gridColumns 10 8 = 8 ∧ gridRows 10 8 = 2 ∧ 8 / gridColumns 10 8 = 1 ∧
      8 % gridColumns 10 8 = 0) ∧
    (∀ (pix0 pix3 : Nat × Nat → Rgba) (rp : ResizeFn),
      ∃ G : Image,
        create_tilesheet ["a_0.png".toList, "a_3.png".toList]
            (fun f => if f = "a_0.png".toList then ⟨128, 256, pix0⟩ else ⟨128, 256, pix3⟩)
            true 8 128 256 rp = some G ∧
        G.width = 512 ∧ G.height = 256 ∧
        (∀ dx dy : Nat, dx < 128 → dy < 256 →
          G.pixel (dx, dy) = pix0 (dx, dy) ∧
          G.pixel (128 + dx, dy) = transparentPx ∧
          G.pixel (256 + dx, dy) = transparentPx ∧
          G.pixel (384 + dx, dy) = pix3 (dx, dy))) := by
  refine ⟨?_, by decide, ?_⟩
  · intro slots maxC tw th rp hn hc
    exact ⟨rfl, gridRows_ceil slots.length maxC hn hc,
      composeGrid_width slots maxC tw th rp, composeGrid_height slots maxC tw th rp,
      fun k dx dy hk hdx hdy => composeGrid_pixel slots maxC tw th rp k dx dy hk hdx hdy⟩
  · intro pix0 pix3 rp
    refine ⟨composeGrid [some ⟨128, 256, pix0⟩, none, none, some ⟨128, 256, pix3⟩] 8 128 256 rp,
      ?_, ?_, ?_, ?_⟩
    · rw [create_tilesheet_def, if_neg (by decide), if_pos rfl]
      have hexp : expandedGapFill (sortedFiles ["a_0.png".toList, "a_3.png".toList]) =
          some [some "a_0.png".toList, none, none, some "a_3.png".toList] := by decide
      rw [hexp]
      rfl
    · rw [composeGrid_width,
        show ([some (⟨128, 256, pix0⟩ : Image), none, none,
          some ⟨128, 256, pix3⟩] : List (Option Image)).length = 4 from rfl]
      decide
    · rw [composeGrid_height,
        show ([some (⟨128, 256, pix0⟩ : Image), none, none,
          some ⟨128, 256, pix3⟩] : List (Option Image)).length = 4 from rfl]
      decide
    · intro dx dy hdx hdy
      have hlen : ([some (⟨128, 256, pix0⟩ : Image), none, none,
          some ⟨128, 256, pix3⟩] : List (Option Image)).length = 4 := rfl
      have hcols : gridColumns ([some (⟨128, 256, pix0⟩ : Image), none, none,
          some ⟨128, 256, pix3⟩] : List (Option Image)).length 8 = 4 := by
        rw [hlen]
        decide
      refine ⟨?_, ?_, ?_, ?_⟩
      · have h := composeGrid_pixel _ 8 128 256 rp 0 dx dy (by rw [hlen]; omega) hdx hdy
        rw [hcols] at h
        rw [show (0 : Nat) % 4 * 128 + dx = dx from by norm_num,
          show (0 : Nat) / 4 * 256 + dy = dy from by norm_num] at h
        rw [h]
        rfl
      · have h := composeGrid_pixel _ 8 128 256 rp 1 dx dy (by rw [hlen]; omega) hdx hdy
        rw [hcols] at h
        rw [show (1 : Nat) % 4 * 128 + dx = 128 + dx from by norm_num,
          show (1 : Nat) / 4 * 256 + dy = dy from by norm_num] at h
        rw [h]
        rfl
      · have h := composeGrid_pixel _ 8 128 256 rp 2 dx dy (by rw [hlen]; omega) hdx hdy
        rw [hcols] at h
        rw [show (2 : Nat) % 4 * 128 + dx = 256 + dx from by norm_num,
          show (2 : Nat) / 4 * 256 + dy = dy from by norm_num] at h
        rw [h]
        rfl
      · have h := composeGrid_pixel _ 8 128 256 rp 3 dx dy (by rw [hlen]; omega) hdx hdy
        rw [hcols] at h
        rw [show (3 : Nat) % 4 * 128 + dx = 384 + dx from by norm_num,
          show (3 : Nat) / 4 * 256 + dy = dy from by norm_num] at h
        rw [h]
        rfl

theorem claim_C2_witness :
    ((1 : Nat) ≤ ([some (Image.blank 128 256), none] : List (Option Image)).length ∧
      (1 : Nat) ≤ 8) ∧
    (composeGrid [some (Image.blank 128 256), none] 8 128 256
        (fun _ _ _ _ => transparentPx)).width =
      gridColumns ([some (Image.blank 128 256), none] : List (Option Image)).length 8 * 128 := by
  have h := claim_C2.1 [some (Image.blank 128 256), none] 8 128 256
    (fun _ _ _ _ => transparentPx) (by decide) (by decide)
  exact ⟨⟨by decide, by decide⟩, h.2.2.1⟩

/-! ### Names of generated placeholder files -/

theorem dictLookup_some_plm {fs : List Filename} {i : Nat} {f : Filename}
    (h : dictLookup (buildIndexMap fs) i = some f) :
    f ∈ fs ∧ parse_last_number f = some i := by
  rw [dictLookup_buildIndexMap] at h
  have hmem := List.mem_of_mem_getLast? h
  rw [List.mem_filter] at hmem
  exact ⟨hmem.1, by simpa using hmem.2⟩

theorem plm_new_name {minFile : Filename} {minI : Nat} (i : Nat)
    (hplm : parse_last_number minFile = some minI)
    (himg : hasImageExt minFile = true) :
    parse_last_number
        (parsePrefix minFile minI ++ natToStr i ++ lowerStr (splitext minFile).2) = some i ∧
    hasImageExt
        (parsePrefix minFile minI ++ natToStr i ++ lowerStr (splitext minFile).2) = true := by
  have hne : parse_last_number minFile ≠ none := by rw [hplm]; simp
  have hext := ext_nodigit himg hne
  constructor
  · apply plm_synth i (trailing_parsePrefix hplm hext)
    intro c hc
    obtain ⟨c', hc', rfl⟩ := List.mem_map.mp hc
    rw [isDigit_toLower]
    exact hext c' hc'
  · have hlow : lowerStr (parsePrefix minFile minI ++ natToStr i ++
        lowerStr (splitext minFile).2) =
        lowerStr (parsePrefix minFile minI ++ natToStr i) ++
          lowerStr (lowerStr (splitext minFile).2) := by
      simp [lowerStr, List.map_append]
    rcases ext_spec himg hne with h | h | h
    · rw [hasImageExt, Bool.or_eq_true, Bool.or_eq_true]
      left; left
      rw [List.isSuffixOf_iff_suffix, hlow, h]
      rw [show lowerStr ".png".toList = ".png".toList from by decide]
      exact List.suffix_append _ _
    · rw [hasImageExt, Bool.or_eq_true, Bool.or_eq_true]
      left; right
      rw [List.isSuffixOf_iff_suffix, hlow, h]
      rw [show lowerStr ".jpg".toList = ".jpg".toList from by decide]
      exact List.suffix_append _ _
    · rw [hasImageExt, Bool.or_eq_true, Bool.or_eq_true]
      right
      rw [List.isSuffixOf_iff_suffix, hlow, h]
      rw [show lowerStr ".jpeg".toList = ".jpeg".toList from by decide]
      exact List.suffix_append _ _

theorem gmi_eq {files : List Filename} {k : Nat} {ks : List Nat} {minFile : Filename}
    (hkeys : (buildIndexMap (files.filter hasImageExt)).map Prod.fst = k :: ks)
    (hlook : dictLookup (buildIndexMap (files.filter hasImageExt)) (ks.foldl min k) =
      some minFile) :
    generate_missing_images files =
      (missing_indices (buildIndexMap (files.filter hasImageExt)) (ks.foldl min k)
          (ks.foldl max k)).map
        (fun idx => parsePrefix minFile (ks.foldl min k) ++ natToStr idx ++
          lowerStr (splitext minFile).2) := by
  have hmapne : buildIndexMap (files.filter hasImageExt) ≠ [] := by
    intro h0
    rw [h0] at hkeys
    simp at hkeys
  have hfne : (files.filter hasImageExt).isEmpty = false := by
    rw [← Bool.not_eq_true, List.isEmpty_iff]
    intro h0
    apply hmapne
    rw [h0]
    rfl
  rw [generate_missing_images_def, hfne]
  simp only [Bool.false_eq_true, if_false]
  have hmne : (buildIndexMap (files.filter hasImageExt)).isEmpty = false := by
    rw [← Bool.not_eq_true, List.isEmpty_iff]
    exact hmapne
  rw [hmne]
  simp only [Bool.false_eq_true, if_false]
  rw [hkeys]
  simp only
  rw [hlook]

/-- C10: the placeholder generator derives every synthesized name from the
file stored for the minimum index alone: each created filename is the
parse_prefix of that file and the minimum index, followed by the decimal
index, followed by that file's extension lowercased. -/
theorem claim_C10 :
    ∀ (files : List Filename) (k : Nat) (ks : List Nat) (minFile : Filename),
      (buildIndexMap (files.filter hasImageExt)).map Prod.fst = k :: ks →
      dictLookup (buildIndexMap (files.filter hasImageExt)) (ks.foldl min k) = some minFile →
      generate_missing_images files =
        (missing_indices (buildIndexMap (files.filter hasImageExt)) (ks.foldl min k)
            (ks.foldl max k)).map
          (fun idx => parsePrefix minFile (ks.foldl min k) ++ natToStr idx ++
            lowerStr (splitext minFile).2) := by
  intro files k ks minFile hkeys hlook
  exact gmi_eq hkeys hlook

theorem claim_C10_witness :
    ((buildIndexMap (["b_0.png".toList, "a_2.JPG".toList].filter hasImageExt)).map Prod.fst
        = [0, 2]) ∧
    generate_missing_images ["b_0.png".toList, "a_2.JPG".toList] =
      (missing_indices
          (buildIndexMap (["b_0.png".toList, "a_2.JPG".toList].filter hasImageExt))
          (([2] : List Nat).foldl min 0) (([2] : List Nat).foldl max 0)).map
        (fun idx => parsePrefix "b_0.png".toList (([2] : List Nat).foldl min 0) ++
          natToStr idx ++ lowerStr (splitext "b_0.png".toList).2) ∧
    generate_missing_images ["b_0.png".toList, "a_2.JPG".toList] = ["b_1.png".toList] := by
  refine ⟨by decide, ?_, by decide⟩
  exact claim_C10 ["b_0.png".toList, "a_2.JPG".toList] 0 [2] "b_0.png".toList
    (by decide) (by decide)

/-- C5: gap-fill generation is idempotent on the folder listing: after one
run every index of the inferred range has a file whose parsed last number
equals it, so a second run over the extended listing finds no missing
indices and creates no files. -/
theorem claim_C5 :
    ∀ files : List Filename,
      (∀ (k : Nat) (ks : List Nat),
        (buildIndexMap (files.filter hasImageExt)).map Prod.fst = k :: ks →
        ∀ i, ks.foldl min k ≤ i → i ≤ ks.foldl max k →
          ∃ f ∈ (files ++ generate_missing_images files).filter hasImageExt,
            parse_last_number f = some i) ∧
      generate_missing_images (files ++ generate_missing_images files) = [] := by
  intro files
  cases hkeys : (buildIndexMap (files.filter hasImageExt)).map Prod.fst with
  | nil =>
    have hM : buildIndexMap (files.filter hasImageExt) = [] := List.map_eq_nil_iff.mp hkeys
    have hcreated : generate_missing_images files = [] := by
      rw [generate_missing_images_def]
      by_cases hA : (files.filter hasImageExt).isEmpty = true
      · rw [if_pos hA]
      · rw [if_neg hA, if_pos (by rw [List.isEmpty_iff]; exact hM)]
    constructor
    · intro k ks hkk
      simp at hkk
    · rw [hcreated, List.append_nil, hcreated]
  | cons k₀ ks₀ =>
    have hminmem : ks₀.foldl min k₀ ∈
        (buildIndexMap (files.filter hasImageExt)).map Prod.fst := by
      rw [hkeys]
      exact foldl_min_mem ks₀ k₀
    have hmaxmem : ks₀.foldl max k₀ ∈
        (buildIndexMap (files.filter hasImageExt)).map Prod.fst := by
      rw [hkeys]
      exact foldl_max_mem ks₀ k₀
    have hbound : ∀ j ∈ (buildIndexMap (files.filter hasImageExt)).map Prod.fst,
        ks₀.foldl min k₀ ≤ j ∧ j ≤ ks₀.foldl max k₀ := by
      intro j hj
      rw [hkeys] at hj
      exact ⟨foldl_min_le ks₀ k₀ j hj, foldl_max_ge ks₀ k₀ j hj⟩
    have hminmax : ks₀.foldl min k₀ ≤ ks₀.foldl max k₀ := (hbound _ hminmem).2
    obtain ⟨minFile, hlook⟩ : ∃ f, dictLookup (buildIndexMap (files.filter hasImageExt))
        (ks₀.foldl min k₀) = some f := by
      have hk := (mem_keys_iff_hasKey _ _).mp hminmem
      rw [hasKey] at hk
      exact Option.isSome_iff_exists.mp hk
    obtain ⟨hminmemA, hplmMin⟩ := dictLookup_some_plm hlook
    have himgMin : hasImageExt minFile = true := (List.mem_filter.mp hminmemA).2
    have hcreated := gmi_eq hkeys hlook
    have hcreatedMem : ∀ g ∈ generate_missing_images files,
        ∃ idx, ks₀.foldl min k₀ ≤ idx ∧ idx ≤ ks₀.foldl max k₀ ∧
          parse_last_number g = some idx ∧ hasImageExt g = true := by
      intro g hg
      rw [hcreated] at hg
      obtain ⟨idx, hidxmem, rfl⟩ := List.mem_map.mp hg
      have hr := (missing_indices_mem _ _ _ hminmax idx).mp hidxmem
      obtain ⟨hp, himg⟩ := plm_new_name idx hplmMin himgMin
      exact ⟨idx, hr.1, hr.2.1, hp, himg⟩
    have hfill : ∀ i, ks₀.foldl min k₀ ≤ i → i ≤ ks₀.foldl max k₀ →
        ∃ f ∈ (files ++ generate_missing_images files).filter hasImageExt,
          parse_last_number f = some i := by
      intro i h1 h2
      by_cases hk : hasKey (buildIndexMap (files.filter hasImageExt)) i = true
      · obtain ⟨f, hfmem, hfplm⟩ := (hasKey_buildIndexMap _ _).mp hk
        obtain ⟨hfin, hfimg⟩ := List.mem_filter.mp hfmem
        exact ⟨f, List.mem_filter.mpr ⟨List.mem_append_left _ hfin, hfimg⟩, hfplm⟩
      · have hmiss : i ∈ missing_indices (buildIndexMap (files.filter hasImageExt))
            (ks₀.foldl min k₀) (ks₀.foldl max k₀) := by
          rw [missing_indices_mem _ _ _ hminmax]
          refine ⟨h1, h2, ?_⟩
          rw [mem_keys_iff_hasKey]
          simpa using hk
        have hgmem : parsePrefix minFile (ks₀.foldl min k₀) ++ natToStr i ++
            lowerStr (splitext minFile).2 ∈ generate_missing_images files := by
          rw [hcreated]
          exact List.mem_map_of_mem _ hmiss
        obtain ⟨hp, himg⟩ := plm_new_name i hplmMin himgMin
        exact ⟨_, List.mem_filter.mpr ⟨List.mem_append_right _ hgmem, himg⟩, hp⟩
    have hkeys₂has : ∀ i, ks₀.foldl min k₀ ≤ i → i ≤ ks₀.foldl max k₀ →
        hasKey (buildIndexMap
          ((files ++ generate_missing_images files).filter hasImageExt)) i = true := by
      intro i h1 h2
      obtain ⟨f, hf, hp⟩ := hfill i h1 h2
      rw [hasKey_buildIndexMap]
      exact ⟨f, hf, hp⟩
    have hkeys₂sub : ∀ j ∈ (buildIndexMap
        ((files ++ generate_missing_images files).filter hasImageExt)).map Prod.fst,
        ks₀.foldl min k₀ ≤ j ∧ j ≤ ks₀.foldl max k₀ := by
      intro j hj
      rw [mem_keys_iff_hasKey, hasKey_buildIndexMap] at hj
      obtain ⟨f, hfmem, hfplm⟩ := hj
      obtain ⟨hfin, hfimg⟩ := List.mem_filter.mp hfmem
      rcases List.mem_append.mp hfin with hfo | hfc
      · have hkey : hasKey (buildIndexMap (files.filter hasImageExt)) j = true := by
          rw [hasKey_buildIndexMap]
          exact ⟨f, List.mem_filter.mpr ⟨hfo, hfimg⟩, hfplm⟩
        apply hbound
        rw [mem_keys_iff_hasKey]
        exact hkey
      · obtain ⟨idx, hi1, hi2, hip, _⟩ := hcreatedMem f hfc
        rw [hip] at hfplm
        injection hfplm with e
        rw [← e]
        exact ⟨hi1, hi2⟩
    refine ⟨?_, ?_⟩
    · intro k ks hkk i h1 h2
      injection hkk with e1 e2
      rw [← e1, ← e2] at h1 h2
      exact hfill i h1 h2
    · rw [generate_missing_images_def]
      have hfe : ((files ++ generate_missing_images files).filter hasImageExt).isEmpty
          = false := by
        rw [← Bool.not_eq_true, List.isEmpty_iff]
        intro h0
        obtain ⟨f, hf, _⟩ := hfill (ks₀.foldl min k₀) (le_refl _) hminmax
        rw [h0] at hf
        exact List.not_mem_nil f hf
      rw [hfe]
      simp only [Bool.false_eq_true, if_false]
      have hM₂ne : buildIndexMap
          ((files ++ generate_missing_images files).filter hasImageExt) ≠ [] := by
        intro h0
        have hk := hkeys₂has (ks₀.foldl min k₀) (le_refl _) hminmax
        rw [h0] at hk
        simp [hasKey, dictLookup] at hk
      have hM₂e : (buildIndexMap
          ((files ++ generate_missing_images files).filter hasImageExt)).isEmpty = false := by
        rw [← Bool.not_eq_true, List.isEmpty_iff]
        exact hM₂ne
      rw [hM₂e]
      simp only [Bool.false_eq_true, if_false]
      obtain ⟨k₂, ks₂, hkeys₂⟩ : ∃ k₂ ks₂, (buildIndexMap
          ((files ++ generate_missing_images files).filter hasImageExt)).map Prod.fst =
            k₂ :: ks₂ := by
        cases hsh : (buildIndexMap
            ((files ++ generate_missing_images files).filter hasImageExt)).map Prod.fst with
        | nil => exact absurd (List.map_eq_nil_iff.mp hsh) hM₂ne
        | cons a b => exact ⟨a, b, rfl⟩
      have hm₂mem : ks₂.foldl min k₂ ∈ (buildIndexMap
          ((files ++ generate_missing_images files).filter hasImageExt)).map Prod.fst := by
        rw [hkeys₂]
        exact foldl_min_mem ks₂ k₂
      have hmx₂mem : ks₂.foldl max k₂ ∈ (buildIndexMap
          ((files ++ generate_missing_images files).filter hasImageExt)).map Prod.fst := by
        rw [hkeys₂]
        exact foldl_max_mem ks₂ k₂
      obtain ⟨ex₂, hlook₂⟩ : ∃ f, dictLookup (buildIndexMap
          ((files ++ generate_missing_images files).filter hasImageExt))
          (ks₂.foldl min k₂) = some f := by
        have hk := (mem_keys_iff_hasKey _ _).mp hm₂mem
        rw [hasKey] at hk
        exact Option.isSome_iff_exists.mp hk
      have hmiss₂ : missing_indices (buildIndexMap
          ((files ++ generate_missing_images files).filter hasImageExt))
          (ks₂.foldl min k₂) (ks₂.foldl max k₂) = [] := by
        rw [missing_indices, List.filter_eq_nil_iff]
        intro i hi
        rw [List.mem_range'_1] at hi
        have hib : ks₂.foldl min k₂ ≤ i ∧ i ≤ ks₂.foldl max k₂ := ⟨hi.1, by omega⟩
        have hb₂ := hkeys₂sub _ hm₂mem
        have hbx₂ := hkeys₂sub _ hmx₂mem
        have hkey := hkeys₂has i (le_trans hb₂.1 hib.1) (le_trans hib.2 hbx₂.2)
        rw [hkey]
        decide
      rw [hkeys₂]
      simp only
      rw [hlook₂]
      simp only
      rw [hmiss₂]
      rfl

theorem claim_C5_witness :
    ((buildIndexMap (["camping_04_0.png".toList, "camping_04_4.png".toList].filter
        hasImageExt)).map Prod.fst = [0, 4]) ∧
    (∃ f ∈ (["camping_04_0.png".toList, "camping_04_4.png".toList] ++
        generate_missing_images ["camping_04_0.png".toList, "camping_04_4.png".toList]).filter
          hasImageExt, parse_last_number f = some 2) ∧
    generate_missing_images (["camping_04_0.png".toList, "camping_04_4.png".toList] ++
      generate_missing_images ["camping_04_0.png".toList, "camping_04_4.png".toList]) = [] := by
  have h := claim_C5 ["camping_04_0.png".toList, "camping_04_4.png".toList]
  exact ⟨by decide, h.1 0 [4] (by decide) 2 (by decide) (by decide), h.2⟩
